import Mathlib

/-!
Shallow embedding of the metric-based mesh-adaptation core of the repository:
the metric algebra of `pyroteus/metric.py` and the goal-oriented error
estimation of `goalie/error_estimation.py`.

Modelling conventions.  Floating-point numerics are idealised as exact real
arithmetic.  A piecewise-constant tensor field is a list of cells, each
carrying a cell volume and the (constant) matrix value on that cell;
`firedrake.assemble` of an integral becomes the volume-weighted sum over the
cells.  Vertex-based fields are maps from node indices to values.  Compiled
per-entity kernels that are dispatched from the translated sources but whose
code lives outside them are modelled from the specification; each such
definition says so in its documentation string.
-/

namespace Goalie

open Matrix

/-- The normalisation order parameter `p`: either the string `"inf"` or a real
number. -/
inductive NormOrder where
  | inf : NormOrder
  | num : ℝ → NormOrder

/-- The runtime errors raised by the translated Python code. -/
inductive PyErr where
  | typeError : PyErr
  | valueError : PyErr
  | assertionError : PyErr
  | notImplementedError : PyErr
  deriving DecidableEq

/-- A mesh cell carrying its volume and the constant value of a `d`-dimensional
tensor field on it. -/
structure Cell (d : ℕ) where
  volume : ℝ
  value : Matrix (Fin d) (Fin d) ℝ

/-- A piecewise-constant metric field: one symmetric-matrix value per cell. -/
abbrev MetricField (d : ℕ) : Type := List (Cell d)

/-- `metric_complexity(metric)` with `boundary=False`:
`assemble(sqrt(det(metric))*dx)`, the continuous analogue of the mesh vertex
count. -/
noncomputable def metric_complexity {d : ℕ} (metric : MetricField d) : ℝ :=
  (metric.map fun c => c.volume * Real.sqrt c.value.det).sum

/-- The exponent `0.5 if p == "inf" else p/(2*p + d)` used for the global
integral in `space_normalise`. -/
noncomputable def normExponent (p : NormOrder) (d : ℕ) : ℝ :=
  match p with
  | NormOrder.inf => 1 / 2
  | NormOrder.num q => q / (2 * q + d)

/-- The pointwise determinant factor `1 if p == "inf" else
det(M) ** (-1/(2*p + d))` applied when rescaling the metric. -/
noncomputable def detScale (p : NormOrder) (d : ℕ) (det : ℝ) : ℝ :=
  match p with
  | NormOrder.inf => 1
  | NormOrder.num q => det ^ (-(1 : ℝ) / (2 * q + d))

/-- The validity check `p == "inf" or p >= 1.0` asserted by `space_normalise`
(and `space_time_normalise`). -/
def validNormOrder (p : NormOrder) : Prop :=
  match p with
  | NormOrder.inf => True
  | NormOrder.num q => 1 ≤ q

/-- `space_normalise(metric, target, p, global_factor, boundary=False)`: if no
`global_factor` is supplied, compute the integral
`assemble(det(M) ** (0.5 if p == "inf" else p/(2p+d)) * dx)` and set
`global_factor = (target/integral) ** (2/d)`; then rescale the metric pointwise
by `global_factor * (1 if p == "inf" else det(M) ** (-1/(2p+d)))`. -/
noncomputable def space_normalise {d : ℕ} (metric : MetricField d) (target : ℝ)
    (p : NormOrder) (global_factor : Option ℝ) : MetricField d :=
  let factor : ℝ :=
    match global_factor with
    | some f => f
    | none =>
        (target /
            (metric.map fun c => c.volume * c.value.det ^ normExponent p d).sum) ^
          ((2 : ℝ) / d)
  metric.map fun c => ⟨c.volume, (factor * detScale p d c.value.det) • c.value⟩

/-- A per-entity eigendecomposition of a symmetric tensor value: the entity's
matrix is `vectors * diagonal values * vectorsᵀ`.  The compiled eigensolver
producing it lives outside the translated sources, so fields are handed to the
eigenvalue kernels in decomposed form; orthogonality of `vectors` is carried
as a hypothesis of the theorems. -/
structure EigDecomp (d : ℕ) where
  vectors : Matrix (Fin d) (Fin d) ℝ
  values : Fin d → ℝ

/-- Rebuild the matrix `V * Λ * Vᵀ` from an eigendecomposition. -/
def recompose {d : ℕ} (E : EigDecomp d) : Matrix (Fin d) (Fin d) ℝ :=
  E.vectors * Matrix.diagonal E.values * E.vectorsᵀ

/-- Modelled from the spec: the eigenvalue clamp performed by the
`metric_from_hessian` kernel of `pyroteus.kernel` (the kernel module is not
among the translated sources): "replace negative or zero eigenvalues with
their absolute value (floored at a small positive epsilon)". -/
noncomputable def clampEigenvalue (eps lam : ℝ) : ℝ :=
  if 0 < lam then lam else max |lam| eps

/-- Modelled from the spec: the `metric_from_hessian` kernel applied at one
entity: clamp every eigenvalue and recompose. -/
noncomputable def metric_from_hessian {d : ℕ} (eps : ℝ) (E : EigDecomp d) :
    Matrix (Fin d) (Fin d) ℝ :=
  recompose ⟨E.vectors, fun i => clampEigenvalue eps (E.values i)⟩

/-- `hessian_metric(hessian)` (the implementation of `make_spd`): apply the
`metric_from_hessian` kernel at every entity of the field.  The rank-2 and
squareness checks of the source are enforced by the types of the embedding. -/
noncomputable def hessian_metric {d : ℕ} (eps : ℝ) (H : List (EigDecomp d)) :
    List (Matrix (Fin d) (Fin d) ℝ) :=
  H.map (metric_from_hessian eps)

/-- The set of positive real solutions of the complexity-allocation equation
`a*c^(d/2) + b*c^((d-1)/2) = target` treated by
`determine_metric_complexity`. -/
noncomputable def dmcSolutions (a b target : ℝ) (d : ℕ) : Set ℝ :=
  {c : ℝ | 0 < c ∧ a * c ^ ((d : ℝ) / 2) + b * c ^ (((d : ℝ) - 1) / 2) = target}

/-- `determine_metric_complexity(H_interior, H_boundary, target, p)` after the
coefficients `a` (the assembled interior integral) and `b` (the assembled
boundary integral) have been computed: raise `NotImplementedError` when
`p == "inf"`; otherwise solve `a*c^(d/2) + b*c^((d-1)/2) = target`, raising
`ValueError` when the solver returns no solution or more than one and
returning the unique solution otherwise.  Modelled from the spec: the external
`sympy.solve` call is modelled as producing the positive real roots of the
equation. -/
noncomputable def determine_metric_complexity (d : ℕ) (a b target : ℝ)
    (p : NormOrder) : Except PyErr ℝ :=
  letI : ∀ (P : Prop), Decidable P := fun P => Classical.propDecidable P
  match p with
  | NormOrder.inf => Except.error PyErr.notImplementedError
  | NormOrder.num _ =>
      if h : ∃! c, c ∈ dmcSolutions a b target d then Except.ok h.choose
      else Except.error PyErr.valueError

open Classical in
/-- Modelled from the spec: the pairwise SPD intersection kernel
(`pyroteus.kernel.intersect`, which is not among the translated sources):
"the standard SPD-intersection construction via simultaneous
eigendecomposition".  Writing `S` for the positive square root of the first
metric and `U diag(mu) Uᵀ` for the spectral decomposition of
`S⁻¹ * M2 * S⁻¹`, the intersection is `S * U * diag(max mu 1) * Uᵀ * S`.  The
guards return the first metric unchanged outside the kernel's SPD domain. -/
noncomputable def intersect_pair {d : ℕ} (M1 M2 : Matrix (Fin d) (Fin d) ℝ) :
    Matrix (Fin d) (Fin d) ℝ :=
  if h1 : M1.PosDef then
    if hA : ((h1.posSemidef.sqrt)⁻¹ * M2 * (h1.posSemidef.sqrt)⁻¹).IsHermitian then
      h1.posSemidef.sqrt *
        ((hA.eigenvectorUnitary : Matrix (Fin d) (Fin d) ℝ) *
          Matrix.diagonal (fun i => max (hA.eigenvalues i) 1) *
          (star hA.eigenvectorUnitary : Matrix (Fin d) (Fin d) ℝ)) *
        h1.posSemidef.sqrt
    else M1
  else M1

/-- A Firedrake `Function` on a tensor function space: the identifier of the
function space it lives in, together with its per-node matrix values. -/
structure FireFunction (d : ℕ) where
  space : ℕ
  vals : ℕ → Matrix (Fin d) (Fin d) ℝ

/-- The left-to-right fold of the pairwise intersection kernel over the
metrics after the first, starting from the fresh copy
`firedrake.Function(metrics[0])` of the first metric. -/
noncomputable def intersectFold {d : ℕ} (m0 : FireFunction d)
    (rest : List (FireFunction d)) : FireFunction d :=
  rest.foldl
    (fun acc m => ⟨acc.space, fun i => intersect_pair (acc.vals i) (m.vals i)⟩)
    ⟨m0.space, m0.vals⟩

/-- `metric_intersection(*metrics, function_space=None, boundary_tag=None)`
(the `boundary_tag=None` path, on which the kernel is applied at every node):
assert the list is nonempty, let `fs` be the supplied function space or the
first metric's, run the loop that interpolates each metric lying in a
different space into `function_space` — the loop rebinds only its local
variable, so the interpolated values are discarded, but calling the external
`firedrake.interpolate` with `function_space=None` still raises a
`TypeError` — then allocate a fresh copy of the first metric and fold the
pairwise intersection kernel over the remaining metrics.  The behaviour of
the external `firedrake.interpolate` is abstracted as the parameter
`interp`. -/
noncomputable def metric_intersection {d : ℕ}
    (interp : FireFunction d → ℕ → FireFunction d)
    (metrics : List (FireFunction d)) (function_space : Option ℕ) :
    Except PyErr (FireFunction d) :=
  match metrics with
  | [] => Except.error PyErr.assertionError
  | m0 :: rest =>
      match function_space with
      | some s =>
          let _discarded := (m0 :: rest).map fun m =>
            if m.space == s then m else interp m s
          Except.ok (intersectFold m0 rest)
      | none =>
          if (m0 :: rest).all fun m => m.space == m0.space then
            Except.ok (intersectFold m0 rest)
          else Except.error PyErr.typeError

/-- The accumulation loop `relaxed_metric += weight * metric` of
`metric_relaxation`, starting from the freshly allocated zero function. -/
noncomputable def relaxFold {d : ℕ} (pairs : List (ℝ × FireFunction d)) :
    ℕ → Matrix (Fin d) (Fin d) ℝ :=
  pairs.foldl (fun acc wm => fun i => acc i + wm.1 • wm.2.vals i) (fun _ => 0)

/-- `metric_relaxation(*metrics, weights=None, function_space=None)`: assert a
nonempty metric list; `weights = weights or np.ones(n)/n`, where in Python an
empty list is falsy and therefore also selects the uniform default; raise
`ValueError` when the weight count differs from the metric count; then
allocate the zero function on the target space and accumulate
`weight * metric`, first interpolating each metric that lives in a different
space into `function_space` (unlike in `metric_intersection`, the
interpolated value is used here).  The external `firedrake.interpolate` is
abstracted as `interp`; calling it with `function_space=None` raises a
`TypeError`. -/
noncomputable def metric_relaxation {d : ℕ}
    (interp : FireFunction d → ℕ → FireFunction d)
    (metrics : List (FireFunction d)) (weights : Option (List ℝ))
    (function_space : Option ℕ) : Except PyErr (FireFunction d) :=
  match metrics with
  | [] => Except.error PyErr.assertionError
  | m0 :: rest =>
      let n := (m0 :: rest).length
      let ws : List ℝ :=
        match weights with
        | none => List.replicate n ((n : ℝ)⁻¹)
        | some [] => List.replicate n ((n : ℝ)⁻¹)
        | some ws => ws
      if ws.length ≠ n then Except.error PyErr.valueError
      else
        let fs : ℕ := function_space.getD m0.space
        if (m0 :: rest).all (fun m => m.space == fs) then
          Except.ok ⟨fs, relaxFold (List.zip ws (m0 :: rest))⟩
        else
          match function_space with
          | none => Except.error PyErr.typeError
          | some s =>
              Except.ok ⟨fs, relaxFold (List.zip ws ((m0 :: rest).map fun m =>
                if m.space == s then m else interp m s))⟩

/-- A Firedrake `Function` as consumed by `get_dwr_indicator`: its name and
the mesh underlying its function space. -/
structure ErrFunction where
  name : String
  mesh : ℕ

/-- The `adjoint_error` argument: a single `Function`, a dictionary mapping
component names to `Function`s, or a malformed object of another type. -/
inductive AdjErrArg where
  | func : ErrFunction → AdjErrArg
  | dict : List (String × ErrFunction) → AdjErrArg
  | invalid : AdjErrArg

/-- An entry of a `test_space` dictionary: a function space (carrying its
underlying mesh) or an object of another type. -/
inductive TSVal where
  | fspace : ℕ → TSVal
  | notSpace : TSVal

/-- The `test_space` argument: `None`, a single function space, a dictionary,
or a malformed object of another type. -/
inductive TestSpaceArg where
  | missing : TestSpaceArg
  | single : ℕ → TestSpaceArg
  | dict : List (String × TSVal) → TestSpaceArg
  | invalid : TestSpaceArg

/-- The `F` argument: a UFL `Form` over a mesh, or an object of another
type. -/
inductive FormArg where
  | form : ℕ → FormArg
  | notForm : FormArg

/-- The per-component loop of `get_dwr_indicator`: for each adjoint-error
component, raise `ValueError` when its key is missing from the test-space
dictionary, `TypeError` when the entry at the key is not a function space,
and `ValueError` when the form's mesh differs from the adjoint error's or
from the test space's; otherwise record the mapping entry. -/
def buildMapping (fmesh : ℕ) (tsd : List (String × TSVal)) :
    List (String × ErrFunction) → Except PyErr (List (String × ℕ × ErrFunction))
  | [] => Except.ok []
  | (key, err) :: rest =>
      match tsd.lookup key with
      | none => Except.error PyErr.valueError
      | some TSVal.notSpace => Except.error PyErr.typeError
      | some (TSVal.fspace m) =>
          if fmesh ≠ err.mesh then Except.error PyErr.valueError
          else if fmesh ≠ m then Except.error PyErr.valueError
          else
            match buildMapping fmesh tsd rest with
            | Except.error e => Except.error e
            | Except.ok tail => Except.ok ((key, m, err) :: tail)

/-- `get_dwr_indicator(F, adjoint_error, test_space=None)`: the input
normalisation and validation.  A non-`Form` `F`, an `adjoint_error` that is
neither a `Function` nor a dictionary, and a `test_space` that is none of
`None`, a function space or a dictionary each raise `TypeError`; a single
test space supplied against several adjoint-error components raises
`ValueError`; then the per-component loop validates keys, entry types and
meshes.  On success the substitution mapping handed to `ufl.replace` and
`form2indicator` is returned: one entry (key, test-space mesh, component) per
adjoint-error component. -/
def get_dwr_indicator (F : FormArg) (adjoint_error : AdjErrArg)
    (test_space : TestSpaceArg) :
    Except PyErr (List (String × ℕ × ErrFunction)) :=
  match F with
  | FormArg.notForm => Except.error PyErr.typeError
  | FormArg.form fmesh =>
      match adjoint_error, test_space with
      | AdjErrArg.invalid, _ => Except.error PyErr.typeError
      | AdjErrArg.func f, TestSpaceArg.missing =>
          buildMapping fmesh [(f.name, TSVal.fspace f.mesh)] [(f.name, f)]
      | AdjErrArg.func f, TestSpaceArg.single m =>
          buildMapping fmesh [(f.name, TSVal.fspace m)] [(f.name, f)]
      | AdjErrArg.func f, TestSpaceArg.dict tse =>
          buildMapping fmesh tse [(f.name, f)]
      | AdjErrArg.func _, TestSpaceArg.invalid => Except.error PyErr.typeError
      | AdjErrArg.dict es, TestSpaceArg.missing =>
          buildMapping fmesh (es.map fun ke => (ke.1, TSVal.fspace ke.2.mesh)) es
      | AdjErrArg.dict es, TestSpaceArg.single m =>
          if es.length ≠ 1 then Except.error PyErr.valueError
          else buildMapping fmesh (es.map fun ke => (ke.1, TSVal.fspace m)) es
      | AdjErrArg.dict es, TestSpaceArg.dict tse => buildMapping fmesh tse es
      | AdjErrArg.dict _, TestSpaceArg.invalid => Except.error PyErr.typeError

/-- The UFL integral types consulted by `form2indicator` via
`integrals_by_type`; every other integral type is left out of `rhs`. -/
inductive IntegralType where
  | cell : IntegralType
  | exteriorFacet : IntegralType
  | interiorFacet : IntegralType
  | other : IntegralType
  deriving DecidableEq

/-- One integral of a 0-form.  The finite-element evaluation is abstracted:
`contrib e` is the value the external assembly produces on element `e` for
the integrand multiplied by the `P0` test function of `e` (for interior
facets, the sum of the two restricted terms). -/
structure Integral where
  itype : IntegralType
  contrib : ℕ → ℝ

/-- A 0-form: a list of integrals over the mesh. -/
structure Form0 where
  integrals : List Integral

/-- The cell, exterior-facet and interior-facet integrals of `F`: exactly
those collected into `rhs` by `form2indicator`. -/
def relevantIntegrals (F : Form0) : List Integral :=
  F.integrals.filter fun I => !(I.itype == IntegralType.other)

/-- The assembled right-hand side at element `e`: each collected integrand is
weighted by the local cell volume `h = CellVolume(mesh)` (and the `P0` test
function selects the element). -/
noncomputable def indicatorRHS (vol : ℕ → ℝ) (F : Form0) (e : ℕ) : ℝ :=
  ((relevantIntegrals F).map fun I => vol e * I.contrib e).sum

/-- `form2indicator(F)`: `TypeError` for a non-`Form` argument (modelled as
`none`); collect the cell, exterior-facet and interior-facet integrals into
`rhs`, weighting each integrand with the local cell volume and a `P0` test
function; the assertion `rhs != 0` fails (`AssertionError`) exactly when no
such integral exists, since `rhs` then remains the integer `0`; otherwise
solve the `P0` mass-matrix system — whose matrix is diagonal, carrying the
element volumes — for the per-element indicator. -/
noncomputable def form2indicator (vol : ℕ → ℝ) :
    Option Form0 → Except PyErr (ℕ → ℝ)
  | none => Except.error PyErr.typeError
  | some F =>
      match relevantIntegrals F with
      | [] => Except.error PyErr.assertionError
      | _ :: _ => Except.ok fun e => indicatorRHS vol F e / vol e

/-- A quadrature point used when `firedrake.assemble` evaluates
`conditional(hmax < hmin, 1, 0) * dx`: its quadrature weight and the `P1`
basis-function values at the point, so that a `P1` field evaluates there to
the corresponding combination of its nodal values. -/
structure QuadPoint (n : ℕ) where
  weight : ℝ
  coeffs : Fin n → ℝ

/-- The quadrature rule of the mesh underlying a `P1` function space with
`n` nodes. -/
structure P1Mesh (n : ℕ) where
  quad : List (QuadPoint n)

/-- Evaluation of a `P1` nodal field at a quadrature point. -/
noncomputable def evalAt {n : ℕ} (q : QuadPoint n) (f : Fin n → ℝ) : ℝ :=
  ∑ i, q.coeffs i * f i

/-- `field.vector().gather().min()` of a nodal field. -/
noncomputable def gatherMin {n : ℕ} (f : Fin (n + 1) → ℝ) : ℝ :=
  (List.ofFn f).foldl min (f 0)

/-- `assemble(conditional(hmax < hmin, 1, 0)*dx)` under the mesh's
quadrature rule. -/
noncomputable def conditionalIntegral {n : ℕ} (mesh : P1Mesh (n + 1))
    (hmin hmax : Fin (n + 1) → ℝ) : ℝ :=
  (mesh.quad.map fun q =>
    q.weight * (if evalAt q hmax < evalAt q hmin then (1 : ℝ) else 0)).sum

/-- `enforce_element_constraints` for one metric on the whole-domain path
(`boundary_tag=None`), after `h_min`, `h_max` and `a_max` have been brought
into `P1`: unless `optimise` is set, assert in turn `min(h_min) > 0`,
`min(h_max) > min(h_min)`, `assemble(conditional(h_max < h_min, 1, 0)*dx)`
close to zero (exact zero in the real-arithmetic model of `np.isclose`), and
`min(a_max) > 1`; a failed assertion raises `AssertionError`.  The
`postproc_metric` clamping kernel then applied at every node lives outside
the translated sources and is abstracted as the parameter `postproc`. -/
noncomputable def enforce_element_constraints {n d : ℕ} (mesh : P1Mesh (n + 1))
    (metric : Fin (n + 1) → Matrix (Fin d) (Fin d) ℝ)
    (hmin hmax amax : Fin (n + 1) → ℝ) (optimise : Bool)
    (postproc : (Fin (n + 1) → Matrix (Fin d) (Fin d) ℝ) →
      (Fin (n + 1) → ℝ) → (Fin (n + 1) → ℝ) → (Fin (n + 1) → ℝ) →
      Fin (n + 1) → Matrix (Fin d) (Fin d) ℝ) :
    Except PyErr (Fin (n + 1) → Matrix (Fin d) (Fin d) ℝ) :=
  letI : ∀ (P : Prop), Decidable P := fun P => Classical.propDecidable P
  if optimise = false then
    if 0 < gatherMin hmin then
      if gatherMin hmin < gatherMin hmax then
        if conditionalIntegral mesh hmin hmax = 0 then
          if 1 < gatherMin amax then
            Except.ok (postproc metric hmin hmax amax)
          else Except.error PyErr.assertionError
        else Except.error PyErr.assertionError
      else Except.error PyErr.assertionError
    else Except.error PyErr.assertionError
  else Except.ok (postproc metric hmin hmax amax)

end Goalie

namespace Goalie

open Matrix

/-! ### Theorems -/

/-- Each summand of the global normalisation integral is positive on a valid
SPD metric cell. -/
theorem normIntegrand_pos {d : ℕ} (p : NormOrder) (c : Cell d)
    (hvol : 0 < c.volume) (hdet : 0 < c.value.det) :
    0 < c.volume * c.value.det ^ normExponent p d :=
  mul_pos hvol (Real.rpow_pos_of_pos hdet _)

/-- Pointwise computation: the square root of the determinant of the rescaled
cell value equals the global factor to the power `d/2` times the original
determinant to the normalisation exponent. -/
theorem sqrt_det_rescaled {d : ℕ} (p : NormOrder) (K D : ℝ)
    (hd : 0 < d) (hK : 0 < K) (hD : 0 < D) (hp : validNormOrder p) :
    Real.sqrt ((K * detScale p d D) ^ d * D) =
      K ^ ((d : ℝ) / 2) * D ^ normExponent p d := by
  have hs : 0 < detScale p d D := by
    cases p with
    | inf => exact one_pos
    | num q => exact Real.rpow_pos_of_pos hD _
  have hKs : (0 : ℝ) < K * detScale p d D := mul_pos hK hs
  have step1 : Real.sqrt ((K * detScale p d D) ^ d * D) =
      (K * detScale p d D) ^ ((d : ℝ) / 2) * D ^ ((1 : ℝ) / 2) := by
    rw [Real.sqrt_eq_rpow,
      Real.mul_rpow (pow_nonneg hKs.le d) hD.le,
      ← Real.rpow_natCast (K * detScale p d D) d,
      ← Real.rpow_mul hKs.le]
    ring_nf
  rw [step1, Real.mul_rpow hK.le hs.le, mul_assoc]
  congr 1
  cases p with
  | inf =>
      simp [detScale, normExponent, Real.one_rpow]
  | num q =>
      have hq : (1 : ℝ) ≤ q := hp
      have hden : (0 : ℝ) < 2 * q + d := by
        have : (1 : ℝ) ≤ (d : ℝ) := by exact_mod_cast hd
        nlinarith
      show (D ^ (-(1 : ℝ) / (2 * q + d))) ^ ((d : ℝ) / 2) * D ^ ((1 : ℝ) / 2) =
        D ^ (q / (2 * q + d))
      rw [← Real.rpow_mul hD.le, ← Real.rpow_add hD]
      congr 1
      field_simp
      ring

/-- C1.  For every valid SPD metric field and every normalisation order `p`
that is either `"inf"` or a real number at least `1`, applying
`space_normalise(metric, target, p)` with no precomputed `global_factor` (and
`boundary=False`) and then `metric_complexity` to the result yields the value
`target` exactly (the floating-point tolerance of the claim becomes exact
equality over the reals). -/
theorem space_normalise_hits_target {d : ℕ} (metric : MetricField d) (target : ℝ)
    (p : NormOrder) (hd : 0 < d) (ht : 0 < target) (hne : metric ≠ [])
    (hvol : ∀ c ∈ metric, 0 < c.volume) (hspd : ∀ c ∈ metric, c.value.PosDef)
    (hp : validNormOrder p) :
    metric_complexity (space_normalise metric target p none) = target := by
  classical
  set I : ℝ := (metric.map fun c => c.volume * c.value.det ^ normExponent p d).sum
    with hIdef
  have hIpos : 0 < I := by
    refine List.sum_pos _ (fun x hx => ?_) ?_
    · obtain ⟨c, hc, rfl⟩ := List.mem_map.mp hx
      exact normIntegrand_pos p c (hvol c hc) (hspd c hc).det_pos
    · simpa using hne
  set K : ℝ := (target / I) ^ ((2 : ℝ) / d) with hKdef
  have hKpos : 0 < K := Real.rpow_pos_of_pos (div_pos ht hIpos) _
  have hsum : metric_complexity (space_normalise metric target p none) =
      (metric.map fun c =>
        K ^ ((d : ℝ) / 2) * (c.volume * c.value.det ^ normExponent p d)).sum := by
    show ((metric.map fun c =>
        (⟨c.volume, (K * detScale p d c.value.det) • c.value⟩ : Cell d)).map
          fun c => c.volume * Real.sqrt c.value.det).sum = _
    rw [List.map_map]
    congr 1
    refine List.map_congr_left (fun c hc => ?_)
    have hdet : ((K * detScale p d c.value.det) • c.value).det =
        (K * detScale p d c.value.det) ^ d * c.value.det := by
      rw [Matrix.det_smul, Fintype.card_fin]
    simp only [Function.comp_apply, hdet]
    rw [sqrt_det_rescaled p K c.value.det hd hKpos (hspd c hc).det_pos hp]
    ring
  have hfac : K ^ ((d : ℝ) / 2) = target / I := by
    rw [hKdef, ← Real.rpow_mul (div_pos ht hIpos).le]
    have hdne : (d : ℝ) ≠ 0 := Nat.cast_ne_zero.mpr hd.ne'
    have : (2 : ℝ) / d * ((d : ℝ) / 2) = 1 := by field_simp
    rw [this, Real.rpow_one]
  rw [hsum, List.sum_map_mul_left, ← hIdef, hfac, div_mul_cancel₀ _ hIpos.ne']

/-- Witness for C1: a single-cell identity metric field in dimension 2,
normalised to target complexity `1` with order `p = 1`. -/
theorem space_normalise_hits_target_witness :
    metric_complexity
        (space_normalise [⟨1, (1 : Matrix (Fin 2) (Fin 2) ℝ)⟩] 1 (NormOrder.num 1) none) =
      1 := by
  refine space_normalise_hits_target _ 1 (NormOrder.num 1) (by norm_num) one_pos
    (by simp) ?_ ?_ le_rfl
  · intro c hc
    rw [List.mem_singleton] at hc
    subst hc
    exact one_pos
  · intro c hc
    rw [List.mem_singleton] at hc
    subst hc
    exact Matrix.PosDef.one

/-- Congruence preserves positive definiteness over the reals: if `D` is
positive definite and `B` is invertible then `Bᵀ * D * B` is positive
definite. -/
theorem posDef_transpose_mul_mul {d : ℕ} {D B : Matrix (Fin d) (Fin d) ℝ}
    (hD : D.PosDef) (hB : IsUnit B) : (Bᵀ * D * B).PosDef := by
  constructor
  · have hDt : Dᵀ = D := by
      have := hD.isHermitian
      rwa [Matrix.IsHermitian, Matrix.conjTranspose_eq_transpose_of_trivial] at this
    show (Bᵀ * D * B)ᴴ = Bᵀ * D * B
    rw [Matrix.conjTranspose_eq_transpose_of_trivial, Matrix.transpose_mul,
      Matrix.transpose_mul, Matrix.transpose_transpose, hDt, Matrix.mul_assoc]
  · intro x hx
    have hBx : B *ᵥ x ≠ 0 := by
      intro h
      exact hx ((Matrix.mulVec_injective_iff_isUnit.mpr hB).eq_iff.mp
        (by simpa using h))
    have hrw : star x ⬝ᵥ (Bᵀ * D * B) *ᵥ x =
        star (B *ᵥ x) ⬝ᵥ D *ᵥ (B *ᵥ x) := by
      have h1 : (Bᵀ * D * B) *ᵥ x = Bᵀ *ᵥ (D *ᵥ (B *ᵥ x)) := by
        rw [← Matrix.mulVec_mulVec, ← Matrix.mulVec_mulVec]
      rw [h1]
      have h2 : star x ⬝ᵥ Bᵀ *ᵥ (D *ᵥ (B *ᵥ x)) =
          (star x ᵥ* Bᵀ) ⬝ᵥ (D *ᵥ (B *ᵥ x)) := Matrix.dotProduct_mulVec _ _ _
      rw [h2, Matrix.vecMul_transpose]
      simp [star_trivial]
    rw [hrw]
    exact hD.2 _ hBx

/-- The clamped eigenvalue produced by the `metric_from_hessian` kernel is
positive whenever the floor `eps` is. -/
theorem clampEigenvalue_pos {eps : ℝ} (lam : ℝ) (heps : 0 < eps) :
    0 < clampEigenvalue eps lam := by
  unfold clampEigenvalue
  split
  · assumption
  · exact lt_of_lt_of_le heps (le_max_right _ _)

/-- If a recomposed matrix with orthogonal eigenvectors is positive definite,
then every eigenvalue of the decomposition is positive. -/
theorem values_pos_of_recompose_posDef {d : ℕ} (E : EigDecomp d)
    (horth : E.vectorsᵀ * E.vectors = 1) (hpd : (recompose E).PosDef) (i : Fin d) :
    0 < E.values i := by
  have hx : E.vectors *ᵥ Pi.single i 1 ≠ 0 := by
    intro h
    have h0 : (E.vectorsᵀ * E.vectors) *ᵥ Pi.single i 1 = 0 := by
      rw [← Matrix.mulVec_mulVec, h, Matrix.mulVec_zero]
    rw [horth, Matrix.one_mulVec] at h0
    simpa using congrFun h0 i
  have hq := hpd.2 _ hx
  have hform : star (E.vectors *ᵥ Pi.single i 1) ⬝ᵥ
      (recompose E) *ᵥ (E.vectors *ᵥ Pi.single i 1) = E.values i := by
    have h1 : (recompose E) *ᵥ (E.vectors *ᵥ Pi.single i 1) =
        E.vectors *ᵥ (Matrix.diagonal E.values *ᵥ Pi.single i 1) := by
      rw [Matrix.mulVec_mulVec]
      show (E.vectors * Matrix.diagonal E.values * E.vectorsᵀ * E.vectors) *ᵥ _ = _
      rw [Matrix.mul_assoc (E.vectors * Matrix.diagonal E.values), horth, Matrix.mul_one,
        ← Matrix.mulVec_mulVec]
    rw [h1, star_trivial, Matrix.dotProduct_mulVec, ← Matrix.mulVec_transpose,
      Matrix.mulVec_mulVec, horth, Matrix.one_mulVec]
    simp [Matrix.mulVec_diagonal, Pi.single_apply]
  rwa [hform] at hq

/-- C2.  For every symmetric rank-2 square tensor field `H` (given at each
entity by an eigendecomposition with orthogonal eigenvectors),
`make_spd`/`hessian_metric` returns a field that is symmetric and positive
definite (all-positive eigenvalues) at every entity, and at every entity whose
matrix is already symmetric positive-definite the kernel returns the matrix
unchanged. -/
theorem hessian_metric_spd {d : ℕ} (eps : ℝ) (heps : 0 < eps)
    (H : List (EigDecomp d)) (horth : ∀ E ∈ H, E.vectorsᵀ * E.vectors = 1) :
    (∀ M ∈ hessian_metric eps H, M.IsSymm ∧ M.PosDef) ∧
      ∀ E ∈ H, (recompose E).PosDef → metric_from_hessian eps E = recompose E := by
  constructor
  · intro M hM
    obtain ⟨E, hE, rfl⟩ := List.mem_map.mp hM
    have hunit : IsUnit E.vectorsᵀ := by
      have hdet : E.vectorsᵀ.det * E.vectors.det = 1 := by
        rw [← Matrix.det_mul, horth E hE, Matrix.det_one]
      exact (Matrix.isUnit_iff_isUnit_det _).mpr (isUnit_of_mul_eq_one _ _ hdet)
    have hdiag : (Matrix.diagonal fun i => clampEigenvalue eps (E.values i)).PosDef :=
      Matrix.PosDef.diagonal fun i => clampEigenvalue_pos _ heps
    have hpd : (metric_from_hessian eps E).PosDef := by
      have := posDef_transpose_mul_mul hdiag hunit
      rwa [Matrix.transpose_transpose] at this
    refine ⟨?_, hpd⟩
    have := hpd.isHermitian
    rwa [Matrix.IsHermitian, Matrix.conjTranspose_eq_transpose_of_trivial] at this
  · intro E hE hpd
    show recompose ⟨E.vectors, fun i => clampEigenvalue eps (E.values i)⟩ = recompose E
    have hvals : (fun i => clampEigenvalue eps (E.values i)) = E.values := by
      funext i
      exact if_pos (values_pos_of_recompose_posDef E (horth E hE) hpd i)
    rw [hvals]

/-- Witness for C2: a single-entity field in dimension 2 whose decomposition
has the identity as eigenvector matrix and eigenvalues `(-1, 2)`. -/
theorem hessian_metric_spd_witness :
    (metric_from_hessian 1
        (⟨(1 : Matrix (Fin 2) (Fin 2) ℝ), ![-1, 2]⟩ : EigDecomp 2)).IsSymm ∧
      (metric_from_hessian 1
        (⟨(1 : Matrix (Fin 2) (Fin 2) ℝ), ![-1, 2]⟩ : EigDecomp 2)).PosDef :=
  (hessian_metric_spd 1 one_pos
      [(⟨(1 : Matrix (Fin 2) (Fin 2) ℝ), ![-1, 2]⟩ : EigDecomp 2)]
      (fun E hE => by
        rw [List.mem_singleton] at hE
        subst hE
        show (1 : Matrix (Fin 2) (Fin 2) ℝ)ᵀ * 1 = 1
        rw [Matrix.transpose_one, Matrix.one_mul])).1
    (metric_from_hessian 1 (⟨(1 : Matrix (Fin 2) (Fin 2) ℝ), ![-1, 2]⟩ : EigDecomp 2))
    (List.mem_singleton.mpr rfl)

/-- In dimension 2 the complexity-allocation equation reads
`a*c + b*sqrt(c) = target`. -/
theorem mem_dmcSolutions_two {a b target c : ℝ} :
    c ∈ dmcSolutions a b target 2 ↔ 0 < c ∧ a * c + b * Real.sqrt c = target := by
  unfold dmcSolutions
  have h1 : ((2 : ℕ) : ℝ) / 2 = 1 := by norm_num
  have h2 : (((2 : ℕ) : ℝ) - 1) / 2 = 1 / 2 := by norm_num
  rw [Set.mem_setOf_eq, h1, h2, Real.rpow_one, ← Real.sqrt_eq_rpow]

/-- The left-hand side of the 2D allocation equation is strictly monotone in
`c` on the positive axis when `a > 0` and `b ≥ 0`. -/
theorem dmc_lhs_strictMono {a b : ℝ} (ha : 0 < a) (hb : 0 ≤ b) {x y : ℝ}
    (hx : 0 < x) (hxy : x < y) :
    a * x + b * Real.sqrt x < a * y + b * Real.sqrt y := by
  have h1 : a * x < a * y := by nlinarith
  have h2 : b * Real.sqrt x ≤ b * Real.sqrt y :=
    mul_le_mul_of_nonneg_left (Real.sqrt_le_sqrt hxy.le) hb
  linarith

/-- With `a > 0`, `b ≥ 0` and positive target, the 2D allocation equation has
exactly one positive real root. -/
theorem dmc_existsUnique_of_pos {a b target : ℝ} (ha : 0 < a) (hb : 0 ≤ b)
    (ht : 0 < target) : ∃! c, c ∈ dmcSolutions a b target 2 := by
  have hdisc : (0 : ℝ) ≤ b ^ 2 + 4 * a * target := by positivity
  set D : ℝ := Real.sqrt (b ^ 2 + 4 * a * target) with hDdef
  have hDsq : D ^ 2 = b ^ 2 + 4 * a * target := Real.sq_sqrt hdisc
  have hbD : b < D := by
    rw [hDdef]
    rw [show b ^ 2 + 4 * a * target = b ^ 2 + 4 * a * target from rfl]
    exact (Real.lt_sqrt hb).mpr (by nlinarith)
  set s : ℝ := (-b + D) / (2 * a) with hsdef
  have hs : 0 < s := by
    apply div_pos
    · linarith
    · linarith
  refine ⟨s ^ 2, ?_, ?_⟩
  · show (s ^ 2) ∈ dmcSolutions a b target 2
    rw [mem_dmcSolutions_two]
    refine ⟨by positivity, ?_⟩
    rw [Real.sqrt_sq hs.le, hsdef]
    field_simp
    nlinarith [hDsq]
  · intro y hy
    have hy' := mem_dmcSolutions_two.mp hy
    have hmem : (s ^ 2) ∈ dmcSolutions a b target 2 := by
      rw [mem_dmcSolutions_two]
      refine ⟨by positivity, ?_⟩
      rw [Real.sqrt_sq hs.le, hsdef]
      field_simp
      nlinarith [hDsq]
    have hs2 := mem_dmcSolutions_two.mp hmem
    rcases lt_trichotomy y (s ^ 2) with h | h | h
    · exfalso
      have := dmc_lhs_strictMono ha hb hy'.1 h
      rw [hy'.2, hs2.2] at this
      exact lt_irrefl _ this
    · exact h
    · exfalso
      have := dmc_lhs_strictMono ha hb hs2.1 h
      rw [hy'.2, hs2.2] at this
      exact lt_irrefl _ this

/-- C3.  `determine_metric_complexity` raises `NotImplementedError` when `p`
is `"inf"`; for numeric `p` it raises `ValueError` exactly when the equation
`a*c^(d/2) + b*c^((d-1)/2) = target` has zero or more than one positive real
root and returns the root when exactly one exists; concretely in dimension 2,
for coefficients `a > 0`, `b ≥ 0`, a positive target admits exactly one
positive root (which is returned) and a nonpositive target admits none (so
`ValueError` is raised). -/
theorem determine_metric_complexity_characterisation
    (a b target q : ℝ) (d : ℕ) (ha : 0 < a) (hb : 0 ≤ b) :
    determine_metric_complexity d a b target NormOrder.inf =
        Except.error PyErr.notImplementedError ∧
      (determine_metric_complexity d a b target (NormOrder.num q) =
          Except.error PyErr.valueError ↔ ¬∃! c, c ∈ dmcSolutions a b target d) ∧
      (∀ c, determine_metric_complexity d a b target (NormOrder.num q) = Except.ok c →
        c ∈ dmcSolutions a b target d ∧ ∀ y ∈ dmcSolutions a b target d, y = c) ∧
      (0 < target →
        ∃ c, determine_metric_complexity 2 a b target (NormOrder.num q) = Except.ok c ∧
          0 < c ∧ a * c + b * Real.sqrt c = target) ∧
      (target ≤ 0 →
        determine_metric_complexity 2 a b target (NormOrder.num q) =
          Except.error PyErr.valueError) := by
  classical
  refine ⟨rfl, ?_, ?_, ?_, ?_⟩
  · show (if h : ∃! c, c ∈ dmcSolutions a b target d then Except.ok h.choose
        else Except.error PyErr.valueError) = Except.error PyErr.valueError ↔ _
    by_cases h : ∃! c, c ∈ dmcSolutions a b target d
    · simp [h]
    · simp [h]
  · intro c hc
    revert hc
    show (if h : ∃! c, c ∈ dmcSolutions a b target d then Except.ok h.choose
        else Except.error PyErr.valueError) = Except.ok c → _
    by_cases h : ∃! c, c ∈ dmcSolutions a b target d
    · rw [dif_pos h]
      intro hok
      have hchoose : h.choose = c := Except.ok.inj hok
      obtain ⟨hmem, huniq⟩ := h.choose_spec
      rw [hchoose] at hmem huniq
      exact ⟨hmem, fun y hy => huniq y hy⟩
    · rw [dif_neg h]
      intro hok
      exact absurd hok (by simp)
  · intro ht
    have h := dmc_existsUnique_of_pos ha hb ht
    refine ⟨h.choose, ?_, ?_⟩
    · show (if h' : ∃! c, c ∈ dmcSolutions a b target 2 then Except.ok h'.choose
          else Except.error PyErr.valueError) = _
      rw [dif_pos h]
    · exact mem_dmcSolutions_two.mp h.choose_spec.1
  · intro ht
    have hempty : ¬∃! c, c ∈ dmcSolutions a b target 2 := by
      rintro ⟨c, hc, -⟩
      have hc' := mem_dmcSolutions_two.mp hc
      have : 0 < a * c + b * Real.sqrt c := by
        have h1 : 0 < a * c := mul_pos ha hc'.1
        have h2 : 0 ≤ b * Real.sqrt c := mul_nonneg hb (Real.sqrt_nonneg c)
        linarith
      rw [hc'.2] at this
      linarith
    show (if h : ∃! c, c ∈ dmcSolutions a b target 2 then Except.ok h.choose
        else Except.error PyErr.valueError) = _
    rw [dif_neg hempty]

/-- Witness for C3: with `a = 1`, `b = 0`, `target = 0` the equation has no
positive root, so the numeric path raises `ValueError` and the `"inf"` path
raises `NotImplementedError`. -/
theorem determine_metric_complexity_witness :
    determine_metric_complexity 2 1 0 0 (NormOrder.num 1) =
        Except.error PyErr.valueError ∧
      determine_metric_complexity 2 1 0 0 NormOrder.inf =
        Except.error PyErr.notImplementedError :=
  ⟨(determine_metric_complexity_characterisation 1 0 0 1 2 one_pos
      le_rfl).2.2.2.2 le_rfl,
    (determine_metric_complexity_characterisation 1 0 0 1 2 one_pos le_rfl).1⟩

/-- `Rᵀ * R` is positive definite for invertible `R`. -/
theorem posDef_transpose_mul_self {d : ℕ} {R : Matrix (Fin d) (Fin d) ℝ}
    (hR : IsUnit R) : (Rᵀ * R).PosDef := by
  have h := posDef_transpose_mul_mul (Matrix.PosDef.one) hR
  rwa [Matrix.mul_one] at h

/-- If a diagonal matrix commutes with `W` against another diagonal matrix,
then so do their images under any entrywise function applied to the diagonal
entries. -/
theorem diagonal_mul_comm_transfer {d : ℕ} (f : ℝ → ℝ) (d1 d2 : Fin d → ℝ)
    (W : Matrix (Fin d) (Fin d) ℝ)
    (h : Matrix.diagonal d1 * W = W * Matrix.diagonal d2) :
    Matrix.diagonal (fun i => f (d1 i)) * W =
      W * Matrix.diagonal (fun i => f (d2 i)) := by
  ext i j
  have hij : d1 i * W i j = W i j * d2 j := by
    simpa [Matrix.diagonal_mul, Matrix.mul_diagonal] using
      congrFun (congrFun h i) j
  rw [Matrix.diagonal_mul, Matrix.mul_diagonal]
  by_cases hW : W i j = 0
  · rw [hW, mul_zero, zero_mul]
  · have hd : d1 i = d2 j := by
      have h2 : d1 i * W i j = d2 j * W i j := by rw [hij, mul_comm]
      exact mul_right_cancel₀ hW h2
    rw [hd, mul_comm]

/-- For positive `t`, `t * max t⁻¹ 1 = max t 1`. -/
theorem mul_max_inv_one {t : ℝ} (ht : 0 < t) : t * max t⁻¹ 1 = max t 1 := by
  rcases le_total t 1 with h | h
  · have h1 : (1 : ℝ) ≤ t⁻¹ := by
      nlinarith [mul_nonneg (sub_nonneg.mpr h) (inv_pos.mpr ht).le,
        mul_inv_cancel₀ ht.ne']
    rw [max_eq_left h1, mul_inv_cancel₀ ht.ne', max_eq_right h]
  · have h1 : t⁻¹ ≤ (1 : ℝ) := by
      nlinarith [mul_nonneg (sub_nonneg.mpr h) (inv_pos.mpr ht).le,
        mul_inv_cancel₀ ht.ne']
    rw [max_eq_right h1, mul_one, max_eq_left h]


/-- The matrix `S⁻¹ * (Rᵀ * diag(Dv) * R) * S⁻¹` handed to the spectral solver
inside the intersection kernel is Hermitian whenever `S` is symmetric. -/
theorem intersect_inner_hermitian {d : ℕ} (R S : Matrix (Fin d) (Fin d) ℝ)
    (Dv : Fin d → ℝ) (hSsymm : Sᵀ = S) :
    (S⁻¹ * (Rᵀ * Matrix.diagonal Dv * R) * S⁻¹).IsHermitian := by
  have hB : (Rᵀ * Matrix.diagonal Dv * R).IsHermitian := by
    rw [← Matrix.conjTranspose_eq_transpose_of_trivial R]
    exact Matrix.isHermitian_conjTranspose_mul_mul R
      (Matrix.isHermitian_diagonal_of_self_adjoint Dv
        (funext fun i => star_trivial (Dv i)))
  have h := Matrix.isHermitian_conjTranspose_mul_mul (S⁻¹) hB
  rwa [Matrix.conjTranspose_eq_transpose_of_trivial, Matrix.transpose_nonsing_inv,
    hSsymm] at h

/-- The positive square root of a positive definite matrix is symmetric,
squares to the matrix, and has invertible determinant. -/
theorem sqrt_facts {d : ℕ} {M : Matrix (Fin d) (Fin d) ℝ} (hM : M.PosDef) :
    (hM.posSemidef.sqrt)ᵀ = hM.posSemidef.sqrt ∧
      hM.posSemidef.sqrt * hM.posSemidef.sqrt = M ∧
      IsUnit (hM.posSemidef.sqrt).det := by
  refine ⟨?_, hM.posSemidef.sqrt_mul_self, ?_⟩
  · have h := hM.posSemidef.posSemidef_sqrt.1
    rwa [Matrix.IsHermitian, Matrix.conjTranspose_eq_transpose_of_trivial] at h
  · have h2 : (hM.posSemidef.sqrt).det * (hM.posSemidef.sqrt).det = M.det := by
      have h3 := congrArg Matrix.det hM.posSemidef.sqrt_mul_self
      rwa [Matrix.det_mul] at h3
    refine isUnit_iff_ne_zero.mpr fun h0 => ?_
    rw [h0, zero_mul] at h2
    exact hM.det_pos.ne' h2.symm

/-- Core computation of the intersection kernel: if `S` is a symmetric square
root of `Rᵀ * R` with invertible determinant, then the spectral clamp of
`S⁻¹ * (Rᵀ * diag(Dv) * R) * S⁻¹` conjugated back by `S` equals
`Rᵀ * diag(max Dv 1) * R`, whatever spectral decomposition is chosen. -/
theorem intersect_core {d : ℕ} (R S : Matrix (Fin d) (Fin d) ℝ) (Dv : Fin d → ℝ)
    (hR : IsUnit R) (hSsymm : Sᵀ = S) (hSS : S * S = Rᵀ * R)
    (hdetS : IsUnit S.det)
    (hA : (S⁻¹ * (Rᵀ * Matrix.diagonal Dv * R) * S⁻¹).IsHermitian) :
    S * ((hA.eigenvectorUnitary : Matrix (Fin d) (Fin d) ℝ) *
        Matrix.diagonal (fun i => max (hA.eigenvalues i) 1) *
        (star hA.eigenvectorUnitary : Matrix (Fin d) (Fin d) ℝ)) * S =
      Rᵀ * Matrix.diagonal (fun i => max (Dv i) 1) * R := by
  classical
  have hSinv : S * S⁻¹ = 1 := Matrix.mul_nonsing_inv S hdetS
  have hinvS : S⁻¹ * S = 1 := Matrix.nonsing_inv_mul S hdetS
  have hSinvT : S⁻¹ᵀ = S⁻¹ := by rw [Matrix.transpose_nonsing_inv, hSsymm]
  set G : Matrix (Fin d) (Fin d) ℝ := R * S⁻¹ with hGdef
  have hGT : Gᵀ = S⁻¹ * Rᵀ := by rw [hGdef, Matrix.transpose_mul, hSinvT]
  have hGTG : Gᵀ * G = 1 := by
    rw [hGT, hGdef]
    calc S⁻¹ * Rᵀ * (R * S⁻¹) = S⁻¹ * (Rᵀ * R) * S⁻¹ := by
          simp only [Matrix.mul_assoc]
      _ = S⁻¹ * (S * S) * S⁻¹ := by rw [hSS]
      _ = (S⁻¹ * S) * (S * S⁻¹) := by simp only [Matrix.mul_assoc]
      _ = 1 := by rw [hinvS, hSinv, Matrix.mul_one]
  have hGGT : G * Gᵀ = 1 := Matrix.mul_eq_one_comm.mp hGTG
  have hAG : S⁻¹ * (Rᵀ * Matrix.diagonal Dv * R) * S⁻¹ =
      Gᵀ * Matrix.diagonal Dv * G := by
    rw [hGT, hGdef]
    simp only [Matrix.mul_assoc]
  set U : Matrix (Fin d) (Fin d) ℝ :=
    (hA.eigenvectorUnitary : Matrix (Fin d) (Fin d) ℝ) with hUdef
  have hUstar : (star hA.eigenvectorUnitary : Matrix (Fin d) (Fin d) ℝ) = Uᵀ := by
    have h : (star hA.eigenvectorUnitary : Matrix (Fin d) (Fin d) ℝ) =
        star (U : Matrix (Fin d) (Fin d) ℝ) := rfl
    rw [h, Matrix.star_eq_conjTranspose, Matrix.conjTranspose_eq_transpose_of_trivial]
  have hUUT : U * Uᵀ = 1 := by
    have h := Matrix.mem_unitaryGroup_iff.mp hA.eigenvectorUnitary.2
    rwa [Matrix.star_eq_conjTranspose,
      Matrix.conjTranspose_eq_transpose_of_trivial] at h
  have hUTU : Uᵀ * U = 1 := Matrix.mul_eq_one_comm.mp hUUT
  have hspec : S⁻¹ * (Rᵀ * Matrix.diagonal Dv * R) * S⁻¹ =
      U * Matrix.diagonal hA.eigenvalues * Uᵀ := by
    have h := hA.spectral_theorem
    rw [RCLike.ofReal_real_eq_id] at h
    rw [Matrix.star_eq_conjTranspose,
      Matrix.conjTranspose_eq_transpose_of_trivial] at h
    simpa [Function.comp] using h
  set W : Matrix (Fin d) (Fin d) ℝ := G * U with hWdef
  have hWT : Wᵀ = Uᵀ * Gᵀ := by rw [hWdef, Matrix.transpose_mul]
  have hWTW : Wᵀ * W = 1 := by
    rw [hWT, hWdef]
    calc Uᵀ * Gᵀ * (G * U) = Uᵀ * (Gᵀ * G) * U := by simp only [Matrix.mul_assoc]
      _ = Uᵀ * U := by rw [hGTG, Matrix.mul_one]
      _ = 1 := hUTU
  have hWWT : W * Wᵀ = 1 := Matrix.mul_eq_one_comm.mp hWTW
  have hDdiag : G * (S⁻¹ * (Rᵀ * Matrix.diagonal Dv * R) * S⁻¹) * Gᵀ =
      Matrix.diagonal Dv := by
    rw [hAG]
    calc G * (Gᵀ * Matrix.diagonal Dv * G) * Gᵀ
        = (G * Gᵀ) * Matrix.diagonal Dv * (G * Gᵀ) := by simp only [Matrix.mul_assoc]
      _ = Matrix.diagonal Dv := by rw [hGGT, Matrix.one_mul, Matrix.mul_one]
  have hDW : Matrix.diagonal Dv * W = W * Matrix.diagonal hA.eigenvalues := by
    conv_lhs => rw [← hDdiag]
    rw [hWdef]
    calc G * (S⁻¹ * (Rᵀ * Matrix.diagonal Dv * R) * S⁻¹) * Gᵀ * (G * U)
        = G * ((S⁻¹ * (Rᵀ * Matrix.diagonal Dv * R) * S⁻¹) * (Gᵀ * G) * U) := by
          simp only [Matrix.mul_assoc]
      _ = G * ((S⁻¹ * (Rᵀ * Matrix.diagonal Dv * R) * S⁻¹) * U) := by
          rw [hGTG, Matrix.mul_one]
      _ = G * (U * Matrix.diagonal hA.eigenvalues) := by
          conv_lhs => rw [hspec]
          congr 1
          calc U * Matrix.diagonal hA.eigenvalues * Uᵀ * U
              = U * Matrix.diagonal hA.eigenvalues * (Uᵀ * U) := by
                simp only [Matrix.mul_assoc]
            _ = U * Matrix.diagonal hA.eigenvalues := by rw [hUTU, Matrix.mul_one]
      _ = G * U * Matrix.diagonal hA.eigenvalues := by simp only [Matrix.mul_assoc]
  have htrans := diagonal_mul_comm_transfer (fun x => max x 1) Dv hA.eigenvalues W hDW
  have hU_GW : U = Gᵀ * W := by
    rw [hWdef]
    calc U = (Gᵀ * G) * U := by rw [hGTG, Matrix.one_mul]
      _ = Gᵀ * (G * U) := by simp only [Matrix.mul_assoc]
  have hUT_WG : Uᵀ = Wᵀ * G := by
    rw [hU_GW, Matrix.transpose_mul, Matrix.transpose_transpose]
  rw [hUstar, hUT_WG, hU_GW]
  have hSG : S * Gᵀ = Rᵀ := by
    rw [hGT]
    calc S * (S⁻¹ * Rᵀ) = (S * S⁻¹) * Rᵀ := by simp only [Matrix.mul_assoc]
      _ = Rᵀ := by rw [hSinv, Matrix.one_mul]
  have hGS : G * S = R := by
    rw [hGdef]
    calc R * S⁻¹ * S = R * (S⁻¹ * S) := by simp only [Matrix.mul_assoc]
      _ = R := by rw [hinvS, Matrix.mul_one]
  calc S * (Gᵀ * W * Matrix.diagonal (fun i => max (hA.eigenvalues i) 1) *
        (Wᵀ * G)) * S
      = (S * Gᵀ) * (W * Matrix.diagonal (fun i => max (hA.eigenvalues i) 1)) *
        (Wᵀ * (G * S)) := by simp only [Matrix.mul_assoc]
    _ = (S * Gᵀ) * (Matrix.diagonal (fun i => max (Dv i) 1) * W) *
        (Wᵀ * (G * S)) := by rw [← htrans]
    _ = (S * Gᵀ) * Matrix.diagonal (fun i => max (Dv i) 1) * (W * Wᵀ) * (G * S) := by
        simp only [Matrix.mul_assoc]
    _ = Rᵀ * Matrix.diagonal (fun i => max (Dv i) 1) * R := by
        rw [hWWT, hSG, hGS, Matrix.mul_one]

set_option maxHeartbeats 1600000 in
/-- Representation lemma for the intersection kernel: if `R` exhibits a
simultaneous reduction of the pair — `M1 = Rᵀ * R` and
`M2 = Rᵀ * diag(Dv) * R` — then the kernel computes
`Rᵀ * diag(max Dv 1) * R`, independently of the spectral decomposition chosen
internally. -/
theorem intersect_pair_repr {d : ℕ} (R : Matrix (Fin d) (Fin d) ℝ)
    (Dv : Fin d → ℝ) (hR : IsUnit R) :
    intersect_pair (Rᵀ * R) (Rᵀ * Matrix.diagonal Dv * R) =
      Rᵀ * Matrix.diagonal (fun i => max (Dv i) 1) * R := by
  have h1 : (Rᵀ * R).PosDef := posDef_transpose_mul_self hR
  unfold intersect_pair
  split
  · next h1' =>
      obtain ⟨hSsymm, hSS, hdetS⟩ := sqrt_facts h1'
      split
      · next hA' => exact intersect_core R (h1'.posSemidef.sqrt) Dv hR hSsymm hSS hdetS hA'
      · next hA' => exact absurd (intersect_inner_hermitian R _ Dv hSsymm) hA'
  · next h1' => exact absurd h1 h1'

/-- Intersecting a positive definite metric value with itself returns it
unchanged. -/
theorem intersect_pair_self {d : ℕ} {M : Matrix (Fin d) (Fin d) ℝ}
    (hM : M.PosDef) : intersect_pair M M = M := by
  obtain ⟨hSsymm, hSS, hdetS⟩ := sqrt_facts hM
  set S : Matrix (Fin d) (Fin d) ℝ := hM.posSemidef.sqrt with hSdef
  have hSunit : IsUnit S := (Matrix.isUnit_iff_isUnit_det S).mpr hdetS
  have h := intersect_pair_repr S (fun _ => (1 : ℝ)) hSunit
  rw [hSsymm] at h
  simp only [max_self] at h
  rw [Matrix.diagonal_one, Matrix.mul_one, hSS] at h
  exact h

/-- The intersection kernel is commutative on positive definite pairs. -/
theorem intersect_pair_comm {d : ℕ} {M1 M2 : Matrix (Fin d) (Fin d) ℝ}
    (h1 : M1.PosDef) (h2 : M2.PosDef) :
    intersect_pair M1 M2 = intersect_pair M2 M1 := by
  classical
  obtain ⟨hSsymm, hSS, hdetS⟩ := sqrt_facts h1
  set S : Matrix (Fin d) (Fin d) ℝ := h1.posSemidef.sqrt with hSdef
  have hSinv : S * S⁻¹ = 1 := Matrix.mul_nonsing_inv S hdetS
  have hinvS : S⁻¹ * S = 1 := Matrix.nonsing_inv_mul S hdetS
  have hSinvT : S⁻¹ᵀ = S⁻¹ := by rw [Matrix.transpose_nonsing_inv, hSsymm]
  have hSinvUnit : IsUnit (S⁻¹) := isUnit_iff_exists.mpr ⟨S, hinvS, hSinv⟩
  have hA : (S⁻¹ * M2 * S⁻¹).IsHermitian := by
    have h := Matrix.isHermitian_conjTranspose_mul_mul (S⁻¹) h2.isHermitian
    rwa [Matrix.conjTranspose_eq_transpose_of_trivial, hSinvT] at h
  have hApos : (S⁻¹ * M2 * S⁻¹).PosDef := by
    have h := posDef_transpose_mul_mul h2 hSinvUnit
    rwa [hSinvT] at h
  set U : Matrix (Fin d) (Fin d) ℝ :=
    (hA.eigenvectorUnitary : Matrix (Fin d) (Fin d) ℝ) with hUdef
  set mu : Fin d → ℝ := hA.eigenvalues with hmudef
  have hmupos : ∀ i, 0 < mu i := fun i => hApos.eigenvalues_pos i
  have hUUT : U * Uᵀ = 1 := by
    have h := Matrix.mem_unitaryGroup_iff.mp hA.eigenvectorUnitary.2
    rwa [Matrix.star_eq_conjTranspose,
      Matrix.conjTranspose_eq_transpose_of_trivial] at h
  have hUTU : Uᵀ * U = 1 := Matrix.mul_eq_one_comm.mp hUUT
  have hspec : S⁻¹ * M2 * S⁻¹ = U * Matrix.diagonal mu * Uᵀ := by
    have h := hA.spectral_theorem
    rw [RCLike.ofReal_real_eq_id] at h
    rw [Matrix.star_eq_conjTranspose,
      Matrix.conjTranspose_eq_transpose_of_trivial] at h
    simpa [Function.comp] using h
  set R : Matrix (Fin d) (Fin d) ℝ := Uᵀ * S with hRdef
  have hRT : Rᵀ = S * U := by
    rw [hRdef, Matrix.transpose_mul, hSsymm, Matrix.transpose_transpose]
  have hdetUT : IsUnit (Uᵀ).det := by
    refine isUnit_of_mul_eq_one _ U.det ?_
    rw [← Matrix.det_mul, hUTU, Matrix.det_one]
  have hRunit : IsUnit R := by
    refine (Matrix.isUnit_iff_isUnit_det R).mpr ?_
    rw [hRdef, Matrix.det_mul]
    exact hdetUT.mul hdetS
  have hM1R : Rᵀ * R = M1 := by
    rw [hRT, hRdef]
    calc S * U * (Uᵀ * S) = S * (U * Uᵀ) * S := by simp only [Matrix.mul_assoc]
      _ = S * S := by rw [hUUT, Matrix.mul_one]
      _ = M1 := hSS
  have hM2R : Rᵀ * Matrix.diagonal mu * R = M2 := by
    rw [hRT, hRdef]
    calc S * U * Matrix.diagonal mu * (Uᵀ * S)
        = S * (U * Matrix.diagonal mu * Uᵀ) * S := by simp only [Matrix.mul_assoc]
      _ = S * (S⁻¹ * M2 * S⁻¹) * S := by rw [← hspec]
      _ = (S * S⁻¹) * M2 * (S⁻¹ * S) := by simp only [Matrix.mul_assoc]
      _ = M2 := by rw [hSinv, hinvS, Matrix.one_mul, Matrix.mul_one]
  have hI12 : intersect_pair M1 M2 =
      Rᵀ * Matrix.diagonal (fun i => max (mu i) 1) * R := by
    conv_lhs => rw [← hM1R, ← hM2R]
    exact intersect_pair_repr R mu hRunit
  set R2 : Matrix (Fin d) (Fin d) ℝ :=
    Matrix.diagonal (fun i => Real.sqrt (mu i)) * R with hR2def
  have hR2T : R2ᵀ = Rᵀ * Matrix.diagonal (fun i => Real.sqrt (mu i)) := by
    rw [hR2def, Matrix.transpose_mul, Matrix.diagonal_transpose]
  have hR2unit : IsUnit R2 := by
    refine (Matrix.isUnit_iff_isUnit_det R2).mpr ?_
    rw [hR2def, Matrix.det_mul]
    refine IsUnit.mul ?_ ((Matrix.isUnit_iff_isUnit_det R).mp hRunit)
    rw [Matrix.det_diagonal]
    refine isUnit_iff_ne_zero.mpr ?_
    exact Finset.prod_ne_zero_iff.mpr fun i _ =>
      (Real.sqrt_pos.mpr (hmupos i)).ne'
  have hM2R2 : R2ᵀ * R2 = M2 := by
    rw [hR2T, hR2def]
    calc Rᵀ * Matrix.diagonal (fun i => Real.sqrt (mu i)) *
          (Matrix.diagonal (fun i => Real.sqrt (mu i)) * R)
        = Rᵀ * (Matrix.diagonal (fun i => Real.sqrt (mu i)) *
            Matrix.diagonal (fun i => Real.sqrt (mu i))) * R := by
          simp only [Matrix.mul_assoc]
      _ = Rᵀ * Matrix.diagonal mu * R := by
          have hfun : (fun i => Real.sqrt (mu i) * Real.sqrt (mu i)) = mu := by
            funext i
            exact Real.mul_self_sqrt (hmupos i).le
          rw [Matrix.diagonal_mul_diagonal, hfun]
      _ = M2 := hM2R
  have hM1R2 : R2ᵀ * Matrix.diagonal (fun i => (mu i)⁻¹) * R2 = M1 := by
    rw [hR2T, hR2def]
    calc Rᵀ * Matrix.diagonal (fun i => Real.sqrt (mu i)) *
          Matrix.diagonal (fun i => (mu i)⁻¹) *
          (Matrix.diagonal (fun i => Real.sqrt (mu i)) * R)
        = Rᵀ * (Matrix.diagonal (fun i => Real.sqrt (mu i)) *
            Matrix.diagonal (fun i => (mu i)⁻¹) *
            Matrix.diagonal (fun i => Real.sqrt (mu i))) * R := by
          simp only [Matrix.mul_assoc]
      _ = Rᵀ * R := by
          rw [Matrix.diagonal_mul_diagonal, Matrix.diagonal_mul_diagonal]
          have hone : (Matrix.diagonal fun i =>
              Real.sqrt (mu i) * (mu i)⁻¹ * Real.sqrt (mu i)) = 1 := by
            have hfun : (fun i => Real.sqrt (mu i) * (mu i)⁻¹ * Real.sqrt (mu i)) =
                fun _ : Fin d => (1 : ℝ) := by
              funext i
              have hss : Real.sqrt (mu i) * Real.sqrt (mu i) = mu i :=
                Real.mul_self_sqrt (hmupos i).le
              calc Real.sqrt (mu i) * (mu i)⁻¹ * Real.sqrt (mu i)
                  = Real.sqrt (mu i) * Real.sqrt (mu i) * (mu i)⁻¹ := by ring
                _ = mu i * (mu i)⁻¹ := by rw [hss]
                _ = 1 := mul_inv_cancel₀ (hmupos i).ne'
            rw [hfun, Matrix.diagonal_one]
          rw [hone, Matrix.mul_one]
      _ = M1 := hM1R
  have hI21 : intersect_pair M2 M1 =
      R2ᵀ * Matrix.diagonal (fun i => max ((mu i)⁻¹) 1) * R2 := by
    conv_lhs => rw [← hM2R2, ← hM1R2]
    exact intersect_pair_repr R2 (fun i => (mu i)⁻¹) hR2unit
  rw [hI12, hI21, hR2T, hR2def]
  have hdd : Matrix.diagonal (fun i => Real.sqrt (mu i)) *
      Matrix.diagonal (fun i => max ((mu i)⁻¹) 1) *
      Matrix.diagonal (fun i => Real.sqrt (mu i)) =
      Matrix.diagonal (fun i => max (mu i) 1) := by
    have hfun : (fun i => Real.sqrt (mu i) * max ((mu i)⁻¹) 1 * Real.sqrt (mu i)) =
        fun i => max (mu i) 1 := by
      funext i
      have ht := hmupos i
      have hss : Real.sqrt (mu i) * Real.sqrt (mu i) = mu i :=
        Real.mul_self_sqrt ht.le
      calc Real.sqrt (mu i) * max ((mu i)⁻¹) 1 * Real.sqrt (mu i)
          = Real.sqrt (mu i) * Real.sqrt (mu i) * max ((mu i)⁻¹) 1 := by ring
        _ = mu i * max ((mu i)⁻¹) 1 := by rw [hss]
        _ = max (mu i) 1 := mul_max_inv_one ht
    rw [Matrix.diagonal_mul_diagonal, Matrix.diagonal_mul_diagonal, hfun]
  refine Eq.symm ?_
  calc Rᵀ * Matrix.diagonal (fun i => Real.sqrt (mu i)) *
        Matrix.diagonal (fun i => max ((mu i)⁻¹) 1) *
        (Matrix.diagonal (fun i => Real.sqrt (mu i)) * R)
      = Rᵀ * (Matrix.diagonal (fun i => Real.sqrt (mu i)) *
          Matrix.diagonal (fun i => max ((mu i)⁻¹) 1) *
          Matrix.diagonal (fun i => Real.sqrt (mu i))) * R := by
        simp only [Matrix.mul_assoc]
    _ = Rᵀ * Matrix.diagonal (fun i => max (mu i) 1) * R := by rw [hdd]

/-- The intersection fold keeps the function space of the first metric. -/
theorem intersectFold_space {d : ℕ} (m0 : FireFunction d)
    (rest : List (FireFunction d)) :
    (intersectFold m0 rest).space = m0.space := by
  unfold intersectFold
  suffices h : ∀ init : FireFunction d,
      (rest.foldl (fun acc m =>
        (⟨acc.space, fun i => intersect_pair (acc.vals i) (m.vals i)⟩ :
          FireFunction d)) init).space = init.space by
    exact h _
  induction rest with
  | nil => intro init; rfl
  | cons a l ih => intro init; exact ih _

/-- C4.  On the whole-domain path (`boundary_tag=None`): intersecting a valid
SPD metric field with itself returns the field, and the intersection of two
SPD metric fields on the same function space is commutative. -/
theorem metric_intersection_self_comm {d : ℕ}
    (interp : FireFunction d → ℕ → FireFunction d) (M M1 M2 : FireFunction d)
    (hM : ∀ i, (M.vals i).PosDef)
    (h1 : ∀ i, (M1.vals i).PosDef) (h2 : ∀ i, (M2.vals i).PosDef)
    (hspace : M1.space = M2.space) :
    metric_intersection interp [M, M] none = Except.ok M ∧
      metric_intersection interp [M1, M2] none =
        metric_intersection interp [M2, M1] none := by
  constructor
  · have hfold : intersectFold M [M] = M := by
      obtain ⟨sp, v⟩ := M
      show (⟨sp, fun i => intersect_pair (v i) (v i)⟩ : FireFunction d) = ⟨sp, v⟩
      rw [FireFunction.mk.injEq]
      exact ⟨rfl, funext fun i => intersect_pair_self (hM i)⟩
    calc metric_intersection interp [M, M] none
        = Except.ok (intersectFold M [M]) := by
          unfold metric_intersection
          simp
      _ = Except.ok M := by rw [hfold]
  · have hc1 : metric_intersection interp [M1, M2] none =
        Except.ok (intersectFold M1 [M2]) := by
      unfold metric_intersection
      simp [hspace]
    have hc2 : metric_intersection interp [M2, M1] none =
        Except.ok (intersectFold M2 [M1]) := by
      unfold metric_intersection
      simp [hspace]
    rw [hc1, hc2]
    refine congrArg Except.ok ?_
    show (⟨M1.space, fun i => intersect_pair (M1.vals i) (M2.vals i)⟩ :
        FireFunction d) =
      ⟨M2.space, fun i => intersect_pair (M2.vals i) (M1.vals i)⟩
    rw [FireFunction.mk.injEq]
    exact ⟨hspace, funext fun i => intersect_pair_comm (h1 i) (h2 i)⟩

/-- Witness for C4: identity metric fields in dimension 2 on one shared
function space. -/
theorem metric_intersection_self_comm_witness :
    metric_intersection (fun m _ => m)
        [(⟨0, fun _ => (1 : Matrix (Fin 2) (Fin 2) ℝ)⟩ : FireFunction 2),
          ⟨0, fun _ => (1 : Matrix (Fin 2) (Fin 2) ℝ)⟩] none =
      Except.ok ⟨0, fun _ => (1 : Matrix (Fin 2) (Fin 2) ℝ)⟩ ∧
      metric_intersection (fun m _ => m)
          [(⟨0, fun _ => (1 : Matrix (Fin 2) (Fin 2) ℝ)⟩ : FireFunction 2),
            ⟨0, fun _ => (1 : Matrix (Fin 2) (Fin 2) ℝ)⟩] none =
        metric_intersection (fun m _ => m)
          [(⟨0, fun _ => (1 : Matrix (Fin 2) (Fin 2) ℝ)⟩ : FireFunction 2),
            ⟨0, fun _ => (1 : Matrix (Fin 2) (Fin 2) ℝ)⟩] none :=
  metric_intersection_self_comm (fun m _ => m)
    (⟨0, fun _ => (1 : Matrix (Fin 2) (Fin 2) ℝ)⟩ : FireFunction 2)
    (⟨0, fun _ => (1 : Matrix (Fin 2) (Fin 2) ℝ)⟩ : FireFunction 2)
    (⟨0, fun _ => (1 : Matrix (Fin 2) (Fin 2) ℝ)⟩ : FireFunction 2)
    (fun _ => Matrix.PosDef.one) (fun _ => Matrix.PosDef.one)
    (fun _ => Matrix.PosDef.one) rfl

/-- C10.  Whenever `metric_intersection` succeeds, its result is the fresh
field initialised from the first metric and folded with the original operand
values, it lives in the first metric's function space, and it does not depend
on the `function_space` argument or on what the (discarded) interpolation
returns: metrics after the first are consumed in their original function
spaces. -/
theorem metric_intersection_fresh_first_space {d : ℕ}
    (interp interp2 : FireFunction d → ℕ → FireFunction d)
    (m0 : FireFunction d) (rest : List (FireFunction d))
    (fs1 fs2 : Option ℕ) (r1 r2 : FireFunction d)
    (hr1 : metric_intersection interp (m0 :: rest) fs1 = Except.ok r1)
    (hr2 : metric_intersection interp2 (m0 :: rest) fs2 = Except.ok r2) :
    r1 = r2 ∧ r1.space = m0.space ∧ r1 = intersectFold m0 rest := by
  have key : ∀ (f : FireFunction d → ℕ → FireFunction d) (fs : Option ℕ)
      (r : FireFunction d),
      metric_intersection f (m0 :: rest) fs = Except.ok r →
        r = intersectFold m0 rest := by
    intro f fs r hr
    cases fs with
    | some s =>
        have h : Except.ok (intersectFold m0 rest) =
            (Except.ok r : Except PyErr (FireFunction d)) := by
          rw [← hr]
          rfl
        exact (Except.ok.inj h).symm
    | none =>
        by_cases hall : ((m0 :: rest).all fun m => m.space == m0.space) = true
        · have h : metric_intersection f (m0 :: rest) none =
              Except.ok (intersectFold m0 rest) := by
            unfold metric_intersection
            exact if_pos hall
          rw [h] at hr
          exact (Except.ok.inj hr).symm
        · have h : metric_intersection f (m0 :: rest) none =
              Except.error PyErr.typeError := by
            unfold metric_intersection
            exact if_neg hall
          rw [h] at hr
          exact absurd hr (by simp)
  have h1 := key interp fs1 r1 hr1
  have h2 := key interp2 fs2 r2 hr2
  refine ⟨h1.trans h2.symm, ?_, h1⟩
  rw [h1]
  exact intersectFold_space m0 rest

/-- Witness for C10: a single identity metric field, intersected once with no
function space and once with an unrelated function space and a different
interpolation behaviour. -/
theorem metric_intersection_fresh_first_space_witness :
    (⟨5, fun _ => (1 : Matrix (Fin 2) (Fin 2) ℝ)⟩ : FireFunction 2) =
        ⟨5, fun _ => (1 : Matrix (Fin 2) (Fin 2) ℝ)⟩ ∧
      (⟨5, fun _ => (1 : Matrix (Fin 2) (Fin 2) ℝ)⟩ : FireFunction 2).space = 5 ∧
      (⟨5, fun _ => (1 : Matrix (Fin 2) (Fin 2) ℝ)⟩ : FireFunction 2) =
        intersectFold ⟨5, fun _ => (1 : Matrix (Fin 2) (Fin 2) ℝ)⟩ [] :=
  metric_intersection_fresh_first_space (fun m _ => m) (fun m s => ⟨s, m.vals⟩)
    ⟨5, fun _ => (1 : Matrix (Fin 2) (Fin 2) ℝ)⟩ [] none (some 3) _ _ rfl rfl

/-- Accumulating `k` copies of the same weighted metric from an arbitrary
start adds `k` times the weighted value. -/
theorem relaxFold_replicate {d : ℕ} (k : ℕ) (w : ℝ) (M : FireFunction d) :
    relaxFold (List.replicate k (w, M)) = fun i => k • (w • M.vals i) := by
  have h : ∀ (k : ℕ) (init : ℕ → Matrix (Fin d) (Fin d) ℝ),
      (List.replicate k (w, M)).foldl
        (fun acc wm => fun i => acc i + wm.1 • wm.2.vals i) init =
        fun i => init i + k • (w • M.vals i) := by
    intro k
    induction k with
    | zero => intro init; funext i; simp
    | succ n ih =>
        intro init
        rw [List.replicate_succ, List.foldl_cons, ih]
        funext i
        show init i + w • M.vals i + n • (w • M.vals i) =
          init i + (n + 1) • (w • M.vals i)
        rw [succ_nsmul]
        abel
  rw [relaxFold, h]
  funext i
  simp

/-- `metric_relaxation` over `j+1` copies of a metric with default (uniform)
weights returns the metric. -/
theorem metric_relaxation_replicate {d : ℕ}
    (interp : FireFunction d → ℕ → FireFunction d) (M : FireFunction d)
    (j : ℕ) :
    metric_relaxation interp (List.replicate (j + 1) M) none none =
      Except.ok M := by
  rw [List.replicate_succ]
  have hlen : (M :: List.replicate j M).length = j + 1 := by simp
  have hall : ((M :: List.replicate j M).all fun m => m.space == M.space) = true := by
    simp only [List.all_eq_true]
    intro m hm
    rw [List.mem_cons] at hm
    rcases hm with rfl | hm
    · simp
    · rw [List.eq_of_mem_replicate hm]
      simp
  have hres : metric_relaxation interp (M :: List.replicate j M) none none =
      Except.ok ⟨M.space, relaxFold (List.zip
        (List.replicate (M :: List.replicate j M).length
          (((M :: List.replicate j M).length : ℝ)⁻¹)) (M :: List.replicate j M))⟩ := by
    unfold metric_relaxation
    dsimp only [Option.getD]
    rw [if_neg (by simp), if_pos hall]
  rw [hres]
  refine congrArg Except.ok ?_
  have hzip : List.zip
      (List.replicate (M :: List.replicate j M).length
        (((M :: List.replicate j M).length : ℝ)⁻¹)) (M :: List.replicate j M) =
      List.replicate (j + 1) ((((j : ℝ) + 1))⁻¹, M) := by
    rw [hlen]
    rw [show (M :: List.replicate j M) = List.replicate (j + 1) M from
      (List.replicate_succ M j).symm]
    rw [List.zip_replicate']
    congr 2
    push_cast
    ring
  rw [hzip, relaxFold_replicate]
  have hvals : (fun i => (j + 1) • ((((j : ℝ) + 1))⁻¹ • M.vals i)) = M.vals := by
    funext i
    rw [← Nat.cast_smul_eq_nsmul ℝ, smul_smul]
    have hne : ((j : ℝ) + 1) ≠ 0 := by positivity
    rw [show (((j : ℕ) + 1 : ℕ) : ℝ) = (j : ℝ) + 1 by push_cast; ring]
    rw [mul_inv_cancel₀ hne, one_smul]
  rw [hvals]

/-- C5 (amended).  `metric_relaxation` applied to `k ≥ 1` copies of a metric
`M` with default (uniform, `1/k` each) weights returns `M`; and it raises
`ValueError` whenever an explicit, *nonempty* weights list has length
different from the number of metrics.  (An explicit *empty* weights list is
falsy in Python, so `weights or np.ones(n)/n` silently replaces it by the
uniform default instead of raising; see the counterexample.) -/
theorem metric_relaxation_uniform_and_length {d : ℕ}
    (interp : FireFunction d → ℕ → FireFunction d) (M : FireFunction d)
    (k : ℕ) (hk : 0 < k) :
    metric_relaxation interp (List.replicate k M) none none = Except.ok M ∧
      ∀ (ms : List (FireFunction d)) (ws : List ℝ) (fsOpt : Option ℕ),
        ms ≠ [] → ws ≠ [] → ws.length ≠ ms.length →
        metric_relaxation interp ms (some ws) fsOpt =
          Except.error PyErr.valueError := by
  constructor
  · obtain ⟨j, rfl⟩ : ∃ j, k = j + 1 :=
      ⟨k - 1, (Nat.succ_pred_eq_of_pos hk).symm⟩
    exact metric_relaxation_replicate interp M j
  · intro ms ws fsOpt hms hws hlen
    obtain ⟨m0, rest, rfl⟩ : ∃ a l, ms = a :: l := by
      cases ms with
      | nil => exact absurd rfl hms
      | cons a l => exact ⟨a, l, rfl⟩
    obtain ⟨w, ws2, rfl⟩ : ∃ a l, ws = a :: l := by
      cases ws with
      | nil => exact absurd rfl hws
      | cons a l => exact ⟨a, l, rfl⟩
    unfold metric_relaxation
    dsimp only [Option.getD]
    rw [if_pos hlen]

/-- Witness for C5: one copy of an identity metric field in dimension 2 with
default weights. -/
theorem metric_relaxation_uniform_and_length_witness :
    metric_relaxation (fun (m : FireFunction 2) (_ : ℕ) => m)
        (List.replicate 1
          (⟨0, fun _ => (1 : Matrix (Fin 2) (Fin 2) ℝ)⟩ : FireFunction 2))
        none none =
      Except.ok ⟨0, fun _ => (1 : Matrix (Fin 2) (Fin 2) ℝ)⟩ :=
  (metric_relaxation_uniform_and_length (fun m _ => m)
    ⟨0, fun _ => (1 : Matrix (Fin 2) (Fin 2) ℝ)⟩ 1 one_pos).1

/-- Counterexample for C5 as literally stated: an explicit empty weights list
has length `0 ≠ 2` yet `metric_relaxation` does not raise — the falsy empty
list is replaced by the uniform default and the call succeeds. -/
theorem metric_relaxation_empty_weights_counterexample :
    ([] : List ℝ).length ≠
        ([(⟨0, fun _ => (1 : Matrix (Fin 2) (Fin 2) ℝ)⟩ : FireFunction 2),
          ⟨0, fun _ => (1 : Matrix (Fin 2) (Fin 2) ℝ)⟩]).length ∧
      metric_relaxation (fun (m : FireFunction 2) (_ : ℕ) => m)
          [(⟨0, fun _ => (1 : Matrix (Fin 2) (Fin 2) ℝ)⟩ : FireFunction 2),
            ⟨0, fun _ => (1 : Matrix (Fin 2) (Fin 2) ℝ)⟩] (some []) none =
        Except.ok ⟨0, fun _ => (1 : Matrix (Fin 2) (Fin 2) ℝ)⟩ := by
  refine ⟨by decide, ?_⟩
  have hv : relaxFold
      [(((2 : ℕ) : ℝ)⁻¹, (⟨0, fun _ => (1 : Matrix (Fin 2) (Fin 2) ℝ)⟩ : FireFunction 2)),
        (((2 : ℕ) : ℝ)⁻¹, (⟨0, fun _ => (1 : Matrix (Fin 2) (Fin 2) ℝ)⟩ : FireFunction 2))] =
      fun _ => (1 : Matrix (Fin 2) (Fin 2) ℝ) := by
    funext i
    show (0 : Matrix (Fin 2) (Fin 2) ℝ) + ((2 : ℕ) : ℝ)⁻¹ • (1 : Matrix (Fin 2) (Fin 2) ℝ) +
        ((2 : ℕ) : ℝ)⁻¹ • (1 : Matrix (Fin 2) (Fin 2) ℝ) = 1
    rw [zero_add, ← add_smul]
    norm_num
  calc metric_relaxation (fun (m : FireFunction 2) (_ : ℕ) => m)
        [(⟨0, fun _ => (1 : Matrix (Fin 2) (Fin 2) ℝ)⟩ : FireFunction 2),
          ⟨0, fun _ => (1 : Matrix (Fin 2) (Fin 2) ℝ)⟩] (some []) none
      = Except.ok ⟨0, relaxFold
          [(((2 : ℕ) : ℝ)⁻¹, (⟨0, fun _ => (1 : Matrix (Fin 2) (Fin 2) ℝ)⟩ : FireFunction 2)),
            (((2 : ℕ) : ℝ)⁻¹, (⟨0, fun _ => (1 : Matrix (Fin 2) (Fin 2) ℝ)⟩ : FireFunction 2))]⟩ := rfl
    _ = Except.ok ⟨0, fun _ => (1 : Matrix (Fin 2) (Fin 2) ℝ)⟩ := by rw [hv]

/-- The component loop succeeds exactly when every adjoint-error component has
a function-space entry under its key whose mesh, and whose component's mesh,
match the form's. -/
theorem buildMapping_ok_iff (fmesh : ℕ) (tsd : List (String × TSVal))
    (ae : List (String × ErrFunction)) :
    (∃ mp, buildMapping fmesh tsd ae = Except.ok mp) ↔
      ∀ ke ∈ ae, ∃ m, tsd.lookup ke.1 = some (TSVal.fspace m) ∧
        fmesh = ke.2.mesh ∧ fmesh = m := by
  induction ae with
  | nil => simp [buildMapping]
  | cons he rest ih =>
      obtain ⟨key, err⟩ := he
      constructor
      · rintro ⟨mp, hmp⟩
        rcases hlk : tsd.lookup key with - | v
        · rw [buildMapping, hlk] at hmp
          exact absurd hmp (by simp)
        · cases v with
          | notSpace =>
              rw [buildMapping, hlk] at hmp
              exact absurd hmp (by simp)
          | fspace m =>
              rw [buildMapping, hlk] at hmp
              dsimp only at hmp
              by_cases h1 : fmesh ≠ err.mesh
              · rw [if_pos h1] at hmp
                exact absurd hmp (by simp)
              · rw [if_neg h1] at hmp
                by_cases h2 : fmesh ≠ m
                · rw [if_pos h2] at hmp
                  exact absurd hmp (by simp)
                · rw [if_neg h2] at hmp
                  rcases hrest : buildMapping fmesh tsd rest with e | tail
                  · rw [hrest] at hmp
                    exact absurd hmp (by simp)
                  · intro ke hke
                    rw [List.mem_cons] at hke
                    rcases hke with rfl | hke
                    · exact ⟨m, hlk, not_ne_iff.mp h1, not_ne_iff.mp h2⟩
                    · exact (ih.mp ⟨tail, hrest⟩) ke hke
      · intro h
        obtain ⟨m, hlk, h1, h2⟩ := h (key, err) (List.mem_cons_self _ _)
        obtain ⟨tail, htail⟩ := ih.mpr fun ke hke => h ke (List.mem_cons_of_mem _ hke)
        refine ⟨(key, m, err) :: tail, ?_⟩
        rw [buildMapping, hlk]
        dsimp only
        rw [if_neg (not_ne_iff.mpr h1), if_neg (not_ne_iff.mpr h2), htail]

/-- A `TypeError` from the component loop pinpoints a consulted key whose
test-space entry is not a function space. -/
theorem buildMapping_typeError (fmesh : ℕ) (tsd : List (String × TSVal))
    (ae : List (String × ErrFunction))
    (h : buildMapping fmesh tsd ae = Except.error PyErr.typeError) :
    ∃ ke ∈ ae, tsd.lookup ke.1 = some TSVal.notSpace := by
  induction ae with
  | nil => exact absurd h (by simp [buildMapping])
  | cons he rest ih =>
      obtain ⟨key, err⟩ := he
      rcases hlk : tsd.lookup key with - | v
      · rw [buildMapping, hlk] at h
        exact absurd h (by simp)
      · cases v with
        | notSpace => exact ⟨(key, err), List.mem_cons_self _ _, hlk⟩
        | fspace m =>
            rw [buildMapping, hlk] at h
            dsimp only at h
            by_cases h1 : fmesh ≠ err.mesh
            · rw [if_pos h1] at h
              exact absurd h (by simp)
            · rw [if_neg h1] at h
              by_cases h2 : fmesh ≠ m
              · rw [if_pos h2] at h
                exact absurd h (by simp)
              · rw [if_neg h2] at h
                rcases hrest : buildMapping fmesh tsd rest with e | tail
                · rw [hrest] at h
                  obtain rfl : e = PyErr.typeError := by
                    simpa using h
                  obtain ⟨ke, hke, hke2⟩ := ih hrest
                  exact ⟨ke, List.mem_cons_of_mem _ hke, hke2⟩
                · rw [hrest] at h
                  exact absurd h (by simp)

/-- A `ValueError` from the component loop pinpoints a component whose key is
missing from the test-space dictionary or whose meshes disagree with the
form's. -/
theorem buildMapping_valueError (fmesh : ℕ) (tsd : List (String × TSVal))
    (ae : List (String × ErrFunction))
    (h : buildMapping fmesh tsd ae = Except.error PyErr.valueError) :
    ∃ ke ∈ ae, tsd.lookup ke.1 = none ∨
      ∃ m, tsd.lookup ke.1 = some (TSVal.fspace m) ∧
        (fmesh ≠ ke.2.mesh ∨ fmesh ≠ m) := by
  induction ae with
  | nil => exact absurd h (by simp [buildMapping])
  | cons he rest ih =>
      obtain ⟨key, err⟩ := he
      rcases hlk : tsd.lookup key with - | v
      · exact ⟨(key, err), List.mem_cons_self _ _, Or.inl hlk⟩
      · cases v with
        | notSpace =>
            rw [buildMapping, hlk] at h
            exact absurd h (by simp)
        | fspace m =>
            by_cases h1 : fmesh ≠ err.mesh
            · exact ⟨(key, err), List.mem_cons_self _ _,
                Or.inr ⟨m, hlk, Or.inl h1⟩⟩
            · by_cases h2 : fmesh ≠ m
              · exact ⟨(key, err), List.mem_cons_self _ _,
                  Or.inr ⟨m, hlk, Or.inr h2⟩⟩
              · rw [buildMapping, hlk] at h
                dsimp only at h
                rw [if_neg h1, if_neg h2] at h
                rcases hrest : buildMapping fmesh tsd rest with e | tail
                · rw [hrest] at h
                  obtain rfl : e = PyErr.valueError := by simpa using h
                  obtain ⟨ke, hke, hke2⟩ := ih hrest
                  exact ⟨ke, List.mem_cons_of_mem _ hke, hke2⟩
                · rw [hrest] at h
                  exact absurd h (by simp)

/-- C6.  `get_dwr_indicator` raises `TypeError` on malformed inputs — a
non-`Form` `F`, an `adjoint_error` that is neither a `Function` nor a
dictionary, a malformed `test_space`, or a consulted test-space entry that is
not a function space — and `ValueError` on key or mesh mismatches — a
component key missing from the test space, a single test space supplied
against several components, or a component or test-space mesh differing from
the form's; it succeeds exactly when every adjoint-error component has a
function-space entry under its key whose mesh, and whose own mesh, equal the
form's. -/
theorem get_dwr_indicator_validation (F : FormArg) (ae : AdjErrArg)
    (ts : TestSpaceArg) (fmesh : ℕ) (es : List (String × ErrFunction))
    (tse : List (String × TSVal)) (f : ErrFunction) (m : ℕ) :
    (F = FormArg.notForm →
      get_dwr_indicator F ae ts = Except.error PyErr.typeError) ∧
    (ae = AdjErrArg.invalid → F = FormArg.form fmesh →
      get_dwr_indicator F ae ts = Except.error PyErr.typeError) ∧
    (ts = TestSpaceArg.invalid → F = FormArg.form fmesh → ae ≠ AdjErrArg.invalid →
      get_dwr_indicator F ae ts = Except.error PyErr.typeError) ∧
    (es.length ≠ 1 →
      get_dwr_indicator (FormArg.form fmesh) (AdjErrArg.dict es)
        (TestSpaceArg.single m) = Except.error PyErr.valueError) ∧
    ((∃ mp, get_dwr_indicator (FormArg.form fmesh) (AdjErrArg.dict es)
        (TestSpaceArg.dict tse) = Except.ok mp) ↔
      ∀ ke ∈ es, ∃ m2, tse.lookup ke.1 = some (TSVal.fspace m2) ∧
        fmesh = ke.2.mesh ∧ fmesh = m2) ∧
    (get_dwr_indicator (FormArg.form fmesh) (AdjErrArg.dict es)
        (TestSpaceArg.dict tse) = Except.error PyErr.typeError →
      ∃ ke ∈ es, tse.lookup ke.1 = some TSVal.notSpace) ∧
    (get_dwr_indicator (FormArg.form fmesh) (AdjErrArg.dict es)
        (TestSpaceArg.dict tse) = Except.error PyErr.valueError →
      ∃ ke ∈ es, tse.lookup ke.1 = none ∨
        ∃ m2, tse.lookup ke.1 = some (TSVal.fspace m2) ∧
          (fmesh ≠ ke.2.mesh ∨ fmesh ≠ m2)) ∧
    (get_dwr_indicator (FormArg.form fmesh) (AdjErrArg.func f)
        TestSpaceArg.missing =
      if fmesh = f.mesh then Except.ok [(f.name, f.mesh, f)]
      else Except.error PyErr.valueError) := by
  have hdef : get_dwr_indicator (FormArg.form fmesh) (AdjErrArg.dict es)
      (TestSpaceArg.dict tse) = buildMapping fmesh tse es := rfl
  refine ⟨?_, ?_, ?_, ?_, ?_, ?_, ?_, ?_⟩
  · intro h
    subst h
    rfl
  · intro h hF
    subst h
    subst hF
    rfl
  · intro h hF hae
    subst h
    subst hF
    cases ae with
    | invalid => exact absurd rfl hae
    | func g => rfl
    | dict es2 => rfl
  · intro h
    show (if es.length ≠ 1 then Except.error PyErr.valueError
      else buildMapping fmesh (es.map fun ke => (ke.1, TSVal.fspace m)) es) = _
    rw [if_pos h]
  · rw [hdef]
    exact buildMapping_ok_iff fmesh tse es
  · rw [hdef]
    exact buildMapping_typeError fmesh tse es
  · rw [hdef]
    exact buildMapping_valueError fmesh tse es
  · have hdef2 : get_dwr_indicator (FormArg.form fmesh) (AdjErrArg.func f)
        TestSpaceArg.missing =
        buildMapping fmesh [(f.name, TSVal.fspace f.mesh)] [(f.name, f)] := rfl
    have hlk : ([(f.name, TSVal.fspace f.mesh)] : List (String × TSVal)).lookup
        f.name = some (TSVal.fspace f.mesh) := by simp [List.lookup]
    by_cases hm : fmesh = f.mesh
    · rw [if_pos hm, hdef2, buildMapping, hlk]
      dsimp only
      rw [if_neg (not_ne_iff.mpr hm), if_neg (not_ne_iff.mpr hm)]
      rfl
    · rw [if_neg hm, hdef2, buildMapping, hlk]
      dsimp only
      rw [if_pos hm]

/-- Witness for C6: a non-`Form` first argument raises `TypeError`. -/
theorem get_dwr_indicator_validation_witness :
    get_dwr_indicator FormArg.notForm AdjErrArg.invalid TestSpaceArg.missing =
      Except.error PyErr.typeError :=
  (get_dwr_indicator_validation FormArg.notForm AdjErrArg.invalid
    TestSpaceArg.missing 0 [] [] ⟨"u", 0⟩ 0).1 rfl

/-- C7.  `form2indicator` raises `TypeError` on a non-`Form` argument, fails
its assertion exactly when the 0-form contains no integral over a cell,
exterior-facet or interior-facet domain, and for a 0-form with at least one
such integral returns the piecewise-constant per-element field obtained by
weighting each integrand with the local cell volume and solving the `P0`
mass-matrix system: on every element of nonzero volume the returned indicator
solves `vol e * ind e = rhs e`. -/
theorem form2indicator_characterisation (vol : ℕ → ℝ) (F : Form0) :
    form2indicator vol none = Except.error PyErr.typeError ∧
    (form2indicator vol (some F) = Except.error PyErr.assertionError ↔
      ∀ I ∈ F.integrals, I.itype = IntegralType.other) ∧
    (∀ I ∈ F.integrals, I.itype ≠ IntegralType.other →
      ∃ ind, form2indicator vol (some F) = Except.ok ind ∧
        ∀ e, vol e ≠ 0 → vol e * ind e = indicatorRHS vol F e) := by
  have hnil : relevantIntegrals F = [] ↔
      ∀ I ∈ F.integrals, I.itype = IntegralType.other := by
    rw [relevantIntegrals, List.filter_eq_nil_iff]
    constructor
    · intro h I hI
      have h2 := h I hI
      simpa using h2
    · intro h I hI
      simpa using h I hI
  refine ⟨rfl, ?_, ?_⟩
  · constructor
    · intro h
      rw [← hnil]
      rcases hrel : relevantIntegrals F with - | ⟨a, l⟩
      · rfl
      · rw [form2indicator, hrel] at h
        exact absurd h (by simp)
    · intro h
      rw [form2indicator, hnil.mpr h]
  · intro I hI htype
    rcases hrel : relevantIntegrals F with - | ⟨a, l⟩
    · exact absurd (hnil.mp hrel I hI) htype
    · refine ⟨fun e => indicatorRHS vol F e / vol e, ?_, ?_⟩
      · rw [form2indicator, hrel]
      · intro e hv
        rw [mul_comm, div_mul_cancel₀ _ hv]

/-- Witness for C7: a 0-form with an empty list of integrals fails the
`rhs != 0` assertion. -/
theorem form2indicator_characterisation_witness :
    form2indicator (fun _ => (1 : ℝ)) (some ⟨[]⟩) =
      Except.error PyErr.assertionError :=
  (form2indicator_characterisation (fun _ => 1) ⟨[]⟩).2.1.mpr (by simp)

/-- A left fold of `min` is a lower bound of its start and of every element. -/
theorem foldlMin_le (l : List ℝ) (a : ℝ) :
    l.foldl min a ≤ a ∧ ∀ x ∈ l, l.foldl min a ≤ x := by
  induction l generalizing a with
  | nil => exact ⟨le_refl a, by simp⟩
  | cons b t ih =>
      obtain ⟨h1, h2⟩ := ih (min a b)
      rw [List.foldl_cons]
      refine ⟨h1.trans (min_le_left a b), ?_⟩
      intro x hx
      rw [List.mem_cons] at hx
      rcases hx with hxb | hx
      · rw [hxb]
        exact h1.trans (min_le_right a b)
      · exact h2 x hx

/-- A left fold of `min` is its start or one of the elements. -/
theorem foldlMin_mem (l : List ℝ) (a : ℝ) :
    l.foldl min a = a ∨ l.foldl min a ∈ l := by
  induction l generalizing a with
  | nil => exact Or.inl rfl
  | cons b t ih =>
      rw [List.foldl_cons]
      rcases ih (min a b) with h | h
      · rcases le_total a b with hab | hab
        · exact Or.inl (h.trans (min_eq_left hab))
        · refine Or.inr ?_
          rw [h.trans (min_eq_right hab)]
          exact List.mem_cons_self b t
      · exact Or.inr (List.mem_cons_of_mem b h)

/-- The gathered minimum is a lower bound of every nodal value. -/
theorem gatherMin_le {n : ℕ} (f : Fin (n + 1) → ℝ) (i : Fin (n + 1)) :
    gatherMin f ≤ f i :=
  (foldlMin_le (List.ofFn f) (f 0)).2 (f i)
    ((List.mem_ofFn f (f i)).mpr ⟨i, rfl⟩)

/-- The gathered minimum is attained at some node. -/
theorem gatherMin_mem {n : ℕ} (f : Fin (n + 1) → ℝ) :
    ∃ i, gatherMin f = f i := by
  rcases foldlMin_mem (List.ofFn f) (f 0) with h | h
  · exact ⟨0, h⟩
  · obtain ⟨i, hi⟩ := (List.mem_ofFn f _).mp h
    exact ⟨i, hi.symm⟩

/-- C9 (amended).  `enforce_element_constraints` with `optimise=True` skips
the validation entirely; with `optimise=False` it validates `min(h_min) > 0`,
`min(h_max) > min(h_min)`, that the conditional integral of `h_max < h_min`
vanishes, and `min(a_max) > 1`.  Pointwise `h_min > 0`, `h_max > h_min` and
`a_max > 1` everywhere imply the checks pass (for a quadrature with
nonnegative basis coefficients), and a violation of `h_min > 0` or of
`a_max > 1` anywhere makes them fail; but — unlike what the claim states —
`h_max` merely equalling `h_min` at a node escapes the checks (see the
counterexample). -/
theorem enforce_element_constraints_checks {n d : ℕ} (mesh : P1Mesh (n + 1))
    (metric : Fin (n + 1) → Matrix (Fin d) (Fin d) ℝ)
    (hmin hmax amax : Fin (n + 1) → ℝ)
    (postproc : (Fin (n + 1) → Matrix (Fin d) (Fin d) ℝ) →
      (Fin (n + 1) → ℝ) → (Fin (n + 1) → ℝ) → (Fin (n + 1) → ℝ) →
      Fin (n + 1) → Matrix (Fin d) (Fin d) ℝ) :
    (enforce_element_constraints mesh metric hmin hmax amax true postproc =
      Except.ok (postproc metric hmin hmax amax)) ∧
    ((∀ q ∈ mesh.quad, ∀ i, 0 ≤ q.coeffs i) →
      (∀ i, 0 < hmin i) → (∀ i, hmin i < hmax i) → (∀ i, 1 < amax i) →
      enforce_element_constraints mesh metric hmin hmax amax false postproc =
        Except.ok (postproc metric hmin hmax amax)) ∧
    ((∃ i, hmin i ≤ 0) →
      enforce_element_constraints mesh metric hmin hmax amax false postproc =
        Except.error PyErr.assertionError) ∧
    ((∃ i, amax i ≤ 1) →
      enforce_element_constraints mesh metric hmin hmax amax false postproc =
        Except.error PyErr.assertionError) := by
  classical
  refine ⟨?_, ?_, ?_, ?_⟩
  · rw [enforce_element_constraints, if_neg (by simp)]
  · intro hq h1 h2 h3
    have c1 : 0 < gatherMin hmin := by
      obtain ⟨i, hi⟩ := gatherMin_mem hmin
      rw [hi]
      exact h1 i
    have c2 : gatherMin hmin < gatherMin hmax := by
      obtain ⟨i, hi⟩ := gatherMin_mem hmax
      rw [hi]
      exact lt_of_le_of_lt (gatherMin_le hmin i) (h2 i)
    have c3 : conditionalIntegral mesh hmin hmax = 0 := by
      refine List.sum_eq_zero fun x hx => ?_
      obtain ⟨q, hqm, rfl⟩ := List.mem_map.mp hx
      have hle : evalAt q hmin ≤ evalAt q hmax := by
        refine Finset.sum_le_sum fun i _ => ?_
        exact mul_le_mul_of_nonneg_left (h2 i).le (hq q hqm i)
      rw [if_neg (not_lt.mpr hle), mul_zero]
    have c4 : 1 < gatherMin amax := by
      obtain ⟨i, hi⟩ := gatherMin_mem amax
      rw [hi]
      exact h3 i
    rw [enforce_element_constraints, if_pos rfl, if_pos c1, if_pos c2,
      if_pos c3, if_pos c4]
  · rintro ⟨i, hi⟩
    have c1 : ¬0 < gatherMin hmin :=
      not_lt.mpr ((gatherMin_le hmin i).trans hi)
    rw [enforce_element_constraints, if_pos rfl, if_neg c1]
  · rintro ⟨i, hi⟩
    have c4 : ¬1 < gatherMin amax :=
      not_lt.mpr ((gatherMin_le amax i).trans hi)
    rw [enforce_element_constraints, if_pos rfl]
    by_cases c1 : 0 < gatherMin hmin
    · rw [if_pos c1]
      by_cases c2 : gatherMin hmin < gatherMin hmax
      · rw [if_pos c2]
        by_cases c3 : conditionalIntegral mesh hmin hmax = 0
        · rw [if_pos c3, if_neg c4]
        · rw [if_neg c3]
      · rw [if_neg c2]
    · rw [if_neg c1]

/-- Witness for C9: a two-node mesh with midpoint quadrature and pointwise
valid bounds. -/
theorem enforce_element_constraints_checks_witness :
    enforce_element_constraints (⟨[⟨1, ![1/2, 1/2]⟩]⟩ : P1Mesh 2)
        (fun _ => (1 : Matrix (Fin 2) (Fin 2) ℝ)) ![1, 1] ![2, 2] ![2, 2]
        false (fun m _ _ _ => m) =
      Except.ok ((fun m _ _ _ => m) (fun _ => (1 : Matrix (Fin 2) (Fin 2) ℝ))
        ![1, 1] ![2, 2] ![2, 2]) := by
  refine (enforce_element_constraints_checks _ _ _ _ _ _).2.1 ?_ ?_ ?_ ?_
  · intro q hq i
    rw [List.mem_singleton] at hq
    subst hq
    fin_cases i <;> norm_num
  · intro i
    fin_cases i <;> norm_num
  · intro i
    fin_cases i <;> norm_num
  · intro i
    fin_cases i <;> norm_num

/-- Counterexample for C9 as literally stated: with `h_min = (1,5)` and
`h_max = (2,5)` the bound `h_max > h_min` fails at the second node, yet every
assertion passes — `min(h_max) = 2 > 1 = min(h_min)` and the conditional
integrand vanishes at the (midpoint) quadrature point — so the call succeeds
instead of failing. -/
theorem enforce_element_constraints_equality_counterexample :
    (![2, 5] : Fin 2 → ℝ) 1 ≤ (![1, 5] : Fin 2 → ℝ) 1 ∧
      enforce_element_constraints (⟨[⟨1, ![1/2, 1/2]⟩]⟩ : P1Mesh 2)
          (fun _ => (1 : Matrix (Fin 2) (Fin 2) ℝ)) ![1, 5] ![2, 5] ![2, 2]
          false (fun m _ _ _ => m) =
        Except.ok (fun _ => (1 : Matrix (Fin 2) (Fin 2) ℝ)) := by
  constructor
  · norm_num
  · have c1 : gatherMin (![1, 5] : Fin 2 → ℝ) = 1 := by
      norm_num [gatherMin, List.ofFn_succ, min_def]
    have c2 : gatherMin (![2, 5] : Fin 2 → ℝ) = 2 := by
      norm_num [gatherMin, List.ofFn_succ, min_def]
    have c3 : gatherMin (![2, 2] : Fin 2 → ℝ) = 2 := by
      norm_num [gatherMin, List.ofFn_succ, min_def]
    have c4 : conditionalIntegral (⟨[⟨1, ![1/2, 1/2]⟩]⟩ : P1Mesh 2)
        ![1, 5] ![2, 5] = 0 := by
      have hq : evalAt (⟨1, ![1/2, 1/2]⟩ : QuadPoint 2) ![1, 5] = 3 := by
        rw [evalAt, Fin.sum_univ_two]
        norm_num
      have hq2 : evalAt (⟨1, ![1/2, 1/2]⟩ : QuadPoint 2) ![2, 5] = 7/2 := by
        rw [evalAt, Fin.sum_univ_two]
        norm_num
      rw [conditionalIntegral, List.map_singleton, hq, hq2,
        if_neg (by norm_num), List.sum_singleton, mul_zero]
    rw [enforce_element_constraints, if_pos rfl, if_pos (by rw [c1]; norm_num),
      if_pos (by rw [c1, c2]; norm_num), if_pos c4, if_pos (by rw [c3]; norm_num)]
